import Mathlib

/-!
# Verification of the Othello engine in `src/main.py`

Shallow embedding of the board model (`OthelloState`), the evaluator and the
best-first search engine (`OthelloAI.a_star_search`), together with proofs of
the specification's testable properties.

Conventions of the embedding:
* a board (`numpy` 8×8 int array `OthelloState.board`) is a function
  `Fin 8 → Fin 8 → Int`; `1` is Black, `-1` is White, `0` is empty;
* indexed reads `board[x, y]` become `bget`, writes become `bset`; the Python
  scans only index while the loop guard `0 <= x < 8 and 0 <= y < 8` holds, so
  the out-of-range default of `bget` is unreachable there (claim C10 proves
  the reachable accesses in-bounds via the checked variants below);
* the `while` scans of `_would_flip` / `_flip_direction` walk a ray of the
  8×8 grid and therefore take at most 7 steps for every direction of
  `directions` (each step moves one of the coordinates by ±1 and the loop
  stops when a coordinate leaves `[0,8)`), so fuel `8` makes the structural
  recursions below exact translations of the unbounded loops.
-/

set_option maxHeartbeats 3200000
set_option maxRecDepth 40000

/-- An 8×8 grid of integer cells, mirroring `OthelloState.board`. -/
abbrev Board := Fin 8 → Fin 8 → Int

/-- The Python read `self.board[x, y]` (used by the scans only inside the
range guard, and by `is_valid_move`/`make_move` at the target square). -/
def bget (b : Board) (x y : Int) : Int :=
  if h : 0 ≤ x ∧ x < 8 ∧ 0 ≤ y ∧ y < 8 then
    b ⟨x.toNat, by omega⟩ ⟨y.toNat, by omega⟩
  else 0

/-- The Python write `self.board[x, y] = v` (all writes of `make_move` and
`_flip_direction` happen at in-range coordinates). -/
def bset (b : Board) (x y v : Int) : Board :=
  fun i j => if (i : Int) = x ∧ (j : Int) = y then v else b i j

/-- The direction list of `is_valid_move` / `make_move` in `src/main.py`. -/
def directions : List (Int × Int) :=
  [(0,1), (1,0), (0,-1), (-1,0), (1,1), (-1,-1), (1,-1), (-1,1)]

/-- The `while` loop of `OthelloState._would_flip`, with the current scan
position `(x, y)`, the flag `seen` standing for `len(to_flip) > 0`, and
structural fuel (8 is enough for every ray of the 8×8 grid, see the header). -/
def wouldFlipAux (b : Board) (dx dy player : Int) : Int → Int → Bool → Nat → Bool
  | _, _, _, 0 => false
  | x, y, seen, fuel+1 =>
    if 0 ≤ x ∧ x < 8 ∧ 0 ≤ y ∧ y < 8 then
      if bget b x y = 0 then false
      else if bget b x y = player then seen
      else wouldFlipAux b dx dy player (x + dx) (y + dy) true fuel
    else false

/-- `OthelloState._would_flip(row, col, dx, dy, player)`. -/
def would_flip (b : Board) (row col dx dy player : Int) : Bool :=
  wouldFlipAux b dx dy player (row + dx) (col + dy) false 8

/-- `OthelloState.is_valid_move(row, col, player)`. -/
def is_valid_move (b : Board) (row col player : Int) : Bool :=
  if bget b row col ≠ 0 then false
  else directions.any fun d => would_flip b row col d.1 d.2 player

/-- The flip loop `for flip_x, flip_y in to_flip: self.board[...] = player`
of `OthelloState._flip_direction`. -/
def setAll (ps : List (Int × Int)) (v : Int) (b : Board) : Board :=
  ps.foldl (fun bb q => bset bb q.1 q.2 v) b

/-- The `while` loop of `OthelloState._flip_direction`, carrying the
accumulated `to_flip` list (same fuel convention as `wouldFlipAux`). -/
def flipDirAux (b : Board) (dx dy player : Int) : Int → Int → List (Int × Int) → Nat → Board
  | _, _, _, 0 => b
  | x, y, toFlip, fuel+1 =>
    if 0 ≤ x ∧ x < 8 ∧ 0 ≤ y ∧ y < 8 then
      if bget b x y = 0 then b
      else if bget b x y = player then setAll toFlip player b
      else flipDirAux b dx dy player (x + dx) (y + dy) (toFlip ++ [(x, y)]) fuel
    else b

/-- `OthelloState._flip_direction(row, col, dx, dy, player)` as a function
from the receiver's board to the mutated board. -/
def flip_direction (b : Board) (row col dx dy player : Int) : Board :=
  flipDirAux b dx dy player (row + dx) (col + dy) [] 8

/-- `OthelloState.make_move(row, col, player)`: `none` is Python's `None`;
the new state starts from a copy with the target square set, then
`_flip_direction` runs for the 8 directions in order on the new state. -/
def make_move (b : Board) (row col player : Int) : Option Board :=
  if is_valid_move b row col player = true then
    some (directions.foldl (fun bb d => flip_direction bb row col d.1 d.2 player)
      (bset b row col player))
  else none

/-- `OthelloState.get_valid_moves(player)`: row-major enumeration of the 64
cells, keeping those where `is_valid_move` holds. -/
def get_valid_moves (b : Board) (player : Int) : List (Int × Int) :=
  (List.range 8).flatMap fun i : Nat => (List.range 8).filterMap fun j : Nat =>
    if is_valid_move b i j player = true then some ((i : Int), (j : Int)) else none

/-- `OthelloState.evaluate()`: the nested accumulation loop with the corner /
edge / interior weights of `src/main.py` lines 90–105. -/
def evaluate (b : Board) : Int :=
  (List.range 8).foldl (fun value i =>
    (List.range 8).foldl (fun value j =>
      value + bget b i j *
        (if (i = 0 ∨ i = 7) ∧ (j = 0 ∨ j = 7) then 4
         else if (i = 0 ∨ i = 7) ∨ (j = 0 ∨ j = 7) then 2
         else 1)) value) 0

/-- The default-constructed board of `OthelloState.__init__`: zeros with
`board[3:5, 3:5] = [[1, -1], [-1, 1]]`. -/
def othelloInit : Board := fun i j =>
  if i.val = 3 ∧ j.val = 3 then 1
  else if i.val = 3 ∧ j.val = 4 then -1
  else if i.val = 4 ∧ j.val = 3 then -1
  else if i.val = 4 ∧ j.val = 4 then 1
  else 0

/-- Cells hold one of the three legal values. -/
def WFBoard (b : Board) : Prop := ∀ i j : Fin 8, b i j = -1 ∨ b i j = 0 ∨ b i j = 1

instance : DecidablePred WFBoard := fun b =>
  inferInstanceAs (Decidable (∀ i j : Fin 8, b i j = -1 ∨ b i j = 0 ∨ b i j = 1))

/-! ## The evaluator as a weighted sum (claims C6, C7) -/

/-- The positional weight exactly as the specification words it: corner
cells weigh 4, non-corner edge cells weigh 2, all other cells weigh 1. -/
def specWeight (i j : Nat) : Int :=
  if (i = 0 ∨ i = 7) ∧ (j = 0 ∨ j = 7) then 4
  else if (i = 0 ∨ i = 7) ∨ (j = 0 ∨ j = 7) then 2
  else 1

/-- The specification's reading of the evaluator: the sum over all 64 cells
of the signed cell value times the positional weight. -/
def evaluateSpec (b : Board) : Int :=
  ∑ i ∈ Finset.range 8, ∑ j ∈ Finset.range 8, bget b i j * specWeight i j

theorem evaluate_eq_sum (b : Board) : evaluate b = evaluateSpec b := by
  simp only [evaluate, evaluateSpec, specWeight, List.range_succ, List.range_zero,
    List.foldl_append, List.foldl_cons, List.foldl_nil, Finset.sum_range_succ,
    Finset.sum_range_zero]
  norm_num
  ring

/-- The board with every cell value negated (all pieces swap colour). -/
def negBoard (b : Board) : Board := fun i j => -(b i j)

theorem bget_negBoard (b : Board) (x y : Int) :
    bget (negBoard b) x y = -(bget b x y) := by
  unfold bget negBoard
  split <;> simp

/-- C6: `evaluate` returns the sum over all 64 cells of the signed cell value
(Black = +1, White = -1, Empty = 0) times the positional weight: 4 at the four
corners, 2 on non-corner edge cells, 1 elsewhere. -/
theorem evaluate_is_weighted_sum (b : Board) : evaluate b = evaluateSpec b :=
  evaluate_eq_sum b

/-- C7: `evaluate` is antisymmetric under swapping all Black and White
pieces: negating every cell value negates the score. -/
theorem evaluate_antisymm (b : Board) : evaluate (negBoard b) = -evaluate b := by
  rw [evaluate_eq_sum, evaluate_eq_sum]
  unfold evaluateSpec
  rw [← Finset.sum_neg_distrib]
  refine Finset.sum_congr rfl fun i _ => ?_
  rw [← Finset.sum_neg_distrib]
  refine Finset.sum_congr rfl fun j _ => ?_
  rw [bget_negBoard, neg_mul]

/-- C5: the default-constructed board is the official Othello setup — the
four centre cells hold Black/White/White/Black, every other cell is empty,
the piece count is 2–2, and each side has exactly 4 valid opening moves. -/
theorem initial_board_setup :
    othelloInit 3 3 = 1 ∧ othelloInit 3 4 = -1 ∧
    othelloInit 4 3 = -1 ∧ othelloInit 4 4 = 1 ∧
    (∀ i j : Fin 8, othelloInit i j ≠ 0 →
      ((i.val = 3 ∨ i.val = 4) ∧ (j.val = 3 ∨ j.val = 4))) ∧
    (Finset.univ.filter fun q : Fin 8 × Fin 8 => othelloInit q.1 q.2 = 1).card = 2 ∧
    (Finset.univ.filter fun q : Fin 8 × Fin 8 => othelloInit q.1 q.2 = -1).card = 2 ∧
    (get_valid_moves othelloInit 1).length = 4 ∧
    (get_valid_moves othelloInit (-1)).length = 4 := by
  decide

/-! ## Reads after writes -/

theorem bset_out (b : Board) (x y w : Int)
    (h : ¬(0 ≤ x ∧ x < 8 ∧ 0 ≤ y ∧ y < 8)) : bset b x y w = b := by
  funext i j
  unfold bset
  rw [if_neg]
  rintro ⟨hx, hy⟩
  exact h ⟨hx ▸ by positivity, hx ▸ by exact_mod_cast i.isLt,
    hy ▸ by positivity, hy ▸ by exact_mod_cast j.isLt⟩

theorem bget_bset_same (b : Board) (x y w : Int)
    (h : 0 ≤ x ∧ x < 8 ∧ 0 ≤ y ∧ y < 8) : bget (bset b x y w) x y = w := by
  unfold bget bset
  rw [dif_pos h, if_pos]
  constructor <;> · simp [Int.toNat_of_nonneg]; omega

theorem bget_bset_other (b : Board) (x y w u v : Int)
    (h : u ≠ x ∨ v ≠ y) : bget (bset b x y w) u v = bget b u v := by
  unfold bget bset
  by_cases hin : 0 ≤ u ∧ u < 8 ∧ 0 ≤ v ∧ v < 8
  · rw [dif_pos hin, dif_pos hin, if_neg]
    rintro ⟨hx, hy⟩
    have hu : ((⟨u.toNat, by omega⟩ : Fin 8) : Int) = u := by
      simp [Int.toNat_of_nonneg hin.1]
    have hv : ((⟨v.toNat, by omega⟩ : Fin 8) : Int) = v := by
      simp [Int.toNat_of_nonneg hin.2.2.1]
    rcases h with h | h
    · exact h (by rw [← hu, hx])
    · exact h (by rw [← hv, hy])
  · rw [dif_neg hin, dif_neg hin]

theorem setAll_not_mem (ps : List (Int × Int)) (w : Int) (b : Board) (u v : Int)
    (h : (u, v) ∉ ps) : bget (setAll ps w b) u v = bget b u v := by
  induction ps generalizing b with
  | nil => rfl
  | cons q t ih =>
    simp only [List.mem_cons, not_or] at h
    rw [setAll, List.foldl_cons, ← setAll, ih _ h.2, bget_bset_other]
    by_cases hu : u = q.1
    · right
      intro hv
      exact h.1 (by simp [hu, hv])
    · left; exact hu

theorem setAll_mem (ps : List (Int × Int)) (w : Int) (b : Board) (u v : Int)
    (hmem : (u, v) ∈ ps) (hin : 0 ≤ u ∧ u < 8 ∧ 0 ≤ v ∧ v < 8) :
    bget (setAll ps w b) u v = w := by
  induction ps generalizing b with
  | nil => cases hmem
  | cons q t ih =>
    rw [setAll, List.foldl_cons, ← setAll]
    by_cases ht : (u, v) ∈ t
    · exact ih _ ht
    · rcases List.mem_cons.mp hmem with hq | hq
      · rw [setAll_not_mem _ _ _ _ _ ht, ← hq, bget_bset_same _ _ _ _ hin]
      · exact absurd hq ht

/-! ## Characterising the direction scans (claim C1) -/

theorem shift_pos (x dx : Int) (i : Nat) :
    x + ((i + 1 : Nat) : Int) * dx = (x + dx) + (i : Int) * dx := by
  push_cast
  ring

theorem wouldFlipAux_run (b : Board) (dx dy p : Int) :
    ∀ (fuel : Nat) (x y : Int) (seen : Bool),
      wouldFlipAux b dx dy p x y seen fuel = true →
      ∃ j : Nat, j < fuel ∧
        (∀ i : Nat, i < j →
          (0 ≤ x + i * dx ∧ x + i * dx < 8 ∧ 0 ≤ y + i * dy ∧ y + i * dy < 8) ∧
          bget b (x + i * dx) (y + i * dy) ≠ 0 ∧
          bget b (x + i * dx) (y + i * dy) ≠ p) ∧
        (0 ≤ x + j * dx ∧ x + j * dx < 8 ∧ 0 ≤ y + j * dy ∧ y + j * dy < 8) ∧
        bget b (x + j * dx) (y + j * dy) = p ∧
        (seen = true ∨ 1 ≤ j) := by
  intro fuel
  induction fuel with
  | zero => intro x y seen h; simp [wouldFlipAux] at h
  | succ f ih =>
    intro x y seen h
    rw [wouldFlipAux] at h
    by_cases hin : 0 ≤ x ∧ x < 8 ∧ 0 ≤ y ∧ y < 8
    · rw [if_pos hin] at h
      by_cases h0 : bget b x y = 0
      · rw [if_pos h0] at h; cases h
      · rw [if_neg h0] at h
        by_cases hpp : bget b x y = p
        · rw [if_pos hpp] at h
          refine ⟨0, Nat.succ_pos f, by omega, ?_, ?_, Or.inl h⟩
          · simpa using hin
          · simpa using hpp
        · rw [if_neg hpp] at h
          obtain ⟨j, hjf, hcells, hend, hendp, _⟩ := ih (x + dx) (y + dy) true h
          refine ⟨j + 1, by omega, ?_, ?_, ?_, Or.inr (by omega)⟩
          · intro i hi
            match i with
            | 0 => exact ⟨by simpa using hin, by simpa using h0, by simpa using hpp⟩
            | Nat.succ i' =>
              rw [shift_pos x dx i', shift_pos y dy i']
              exact hcells i' (by omega)
          · rw [shift_pos x dx j, shift_pos y dy j]; exact hend
          · rw [shift_pos x dx j, shift_pos y dy j]; exact hendp
    · rw [if_neg hin] at h; cases h

theorem flipDirAux_frame (b : Board) (dx dy p u v : Int) :
    ∀ (fuel : Nat) (x y : Int) (acc : List (Int × Int)),
      (u, v) ∉ acc →
      (∀ i : Nat, ¬(u = x + i * dx ∧ v = y + i * dy)) →
      bget (flipDirAux b dx dy p x y acc fuel) u v = bget b u v := by
  intro fuel
  induction fuel with
  | zero => intro x y acc _ _; rfl
  | succ f ih =>
    intro x y acc hacc hray
    rw [flipDirAux]
    by_cases hin : 0 ≤ x ∧ x < 8 ∧ 0 ≤ y ∧ y < 8
    · rw [if_pos hin]
      by_cases h0 : bget b x y = 0
      · rw [if_pos h0]
      · rw [if_neg h0]
        by_cases hpp : bget b x y = p
        · rw [if_pos hpp]
          exact setAll_not_mem _ _ _ _ _ hacc
        · rw [if_neg hpp]
          apply ih
          · intro hmem
            rcases List.mem_append.mp hmem with hl | hr
            · exact hacc hl
            · have hxy : (u, v) = (x, y) := by simpa using hr
              have := hray 0
              simp only [Nat.cast_zero, zero_mul, add_zero] at this
              exact this ⟨congrArg Prod.fst hxy, congrArg Prod.snd hxy⟩
          · intro i
            rw [← shift_pos x dx i, ← shift_pos y dy i]
            exact hray (i + 1)
    · rw [if_neg hin]

theorem flipDirAux_run (b : Board) (dx dy p : Int) (hp : p ≠ 0) :
    ∀ (j : Nat) (fuel : Nat) (x y : Int) (acc : List (Int × Int)), j < fuel →
      (∀ i : Nat, i < j →
        (0 ≤ x + i * dx ∧ x + i * dx < 8 ∧ 0 ≤ y + i * dy ∧ y + i * dy < 8) ∧
        bget b (x + i * dx) (y + i * dy) ≠ 0 ∧
        bget b (x + i * dx) (y + i * dy) ≠ p) →
      (0 ≤ x + j * dx ∧ x + j * dx < 8 ∧ 0 ≤ y + j * dy ∧ y + j * dy < 8) →
      bget b (x + j * dx) (y + j * dy) = p →
      flipDirAux b dx dy p x y acc fuel =
        setAll (acc ++ (List.range j).map fun i : Nat =>
          (x + (i : Int) * dx, y + (i : Int) * dy)) p b := by
  intro j
  induction j with
  | zero =>
    intro fuel x y acc hf _ hin hpp
    match fuel, hf with
    | Nat.succ f, _ =>
      rw [flipDirAux]
      simp only [Nat.cast_zero, zero_mul, add_zero] at hin hpp
      rw [if_pos hin, if_neg (by rw [hpp]; exact hp), if_pos hpp]
      simp
  | succ j' ih =>
    intro fuel x y acc hf hcells hin hpp
    match fuel, hf with
    | Nat.succ f, hf =>
      rw [flipDirAux]
      have hc0 := hcells 0 (Nat.succ_pos j')
      simp only [Nat.cast_zero, zero_mul, add_zero] at hc0
      rw [if_pos hc0.1, if_neg hc0.2.1, if_neg hc0.2.2]
      rw [ih f (x + dx) (y + dy) (acc ++ [(x, y)]) (by omega)
        (fun i hi => by
          rw [← shift_pos x dx i, ← shift_pos y dy i]
          exact hcells (i + 1) (by omega))
        (by rw [← shift_pos x dx j', ← shift_pos y dy j']; exact hin)
        (by rw [← shift_pos x dx j', ← shift_pos y dy j']; exact hpp)]
      rw [List.range_succ_eq_map, List.map_cons, List.map_map, List.append_assoc,
        List.singleton_append]
      have hmap : List.map ((fun i : Nat => (x + (i : Int) * dx, y + (i : Int) * dy)) ∘ Nat.succ)
          (List.range j') =
          List.map (fun i : Nat => (x + dx + (i : Int) * dx, y + dy + (i : Int) * dy))
          (List.range j') := by
        refine List.map_congr_left fun i _ => ?_
        simp only [Function.comp_apply]
        rw [Nat.succ_eq_add_one, shift_pos x dx i, shift_pos y dy i]
      rw [hmap]
      norm_num

/-! ## Ray geometry: distinct directions flip disjoint sets of cells -/

theorem directions_nodup : directions.Nodup := by decide

theorem ray_ne_origin (d : Int × Int) (hd : d ∈ directions) (k : Int) (hk : 1 ≤ k)
    (r c : Int) : ¬(r + k * d.1 = r ∧ c + k * d.2 = c) := by
  fin_cases hd <;> · rintro ⟨h1, h2⟩; simp at h1 h2; omega

theorem rays_disjoint (d₁ d₂ : Int × Int) (h₁ : d₁ ∈ directions) (h₂ : d₂ ∈ directions)
    (hne : d₁ ≠ d₂) (k₁ k₂ : Int) (hk₁ : 1 ≤ k₁) (hk₂ : 1 ≤ k₂) (r c : Int) :
    ¬(r + k₁ * d₁.1 = r + k₂ * d₂.1 ∧ c + k₁ * d₁.2 = c + k₂ * d₂.2) := by
  fin_cases h₁ <;> fin_cases h₂ <;>
    first
    | exact absurd rfl hne
    | · rintro ⟨e1, e2⟩; simp at e1 e2; omega

theorem flip_direction_preserves_off_ray (bb : Board) (r c p : Int) (d e : Int × Int)
    (hd : d ∈ directions) (he : e ∈ directions) (hne : d ≠ e) (k : Int) (hk : 1 ≤ k) :
    bget (flip_direction bb r c d.1 d.2 p) (r + k * e.1) (c + k * e.2)
      = bget bb (r + k * e.1) (c + k * e.2) := by
  apply flipDirAux_frame
  · simp
  · intro i
    have e1 : r + d.1 + (i : Int) * d.1 = r + ((i : Int) + 1) * d.1 := by ring
    have e2 : c + d.2 + (i : Int) * d.2 = c + ((i : Int) + 1) * d.2 := by ring
    rw [e1, e2]
    intro h
    exact rays_disjoint e d he hd (Ne.symm hne) k ((i : Int) + 1) hk (by omega) r c h

theorem flip_direction_preserves_origin (bb : Board) (r c p : Int) (d : Int × Int)
    (hd : d ∈ directions) :
    bget (flip_direction bb r c d.1 d.2 p) r c = bget bb r c := by
  apply flipDirAux_frame
  · simp
  · intro i
    have e1 : r + d.1 + (i : Int) * d.1 = r + ((i : Int) + 1) * d.1 := by ring
    have e2 : c + d.2 + (i : Int) * d.2 = c + ((i : Int) + 1) * d.2 := by ring
    rw [e1, e2]
    rintro ⟨h1, h2⟩
    exact ray_ne_origin d hd ((i : Int) + 1) (by omega) r c ⟨h1.symm, h2.symm⟩

theorem foldl_flip_preserve (r c p u v : Int) (l : List (Int × Int))
    (hpre : ∀ d ∈ l, ∀ bb : Board,
      bget (flip_direction bb r c d.1 d.2 p) u v = bget bb u v) :
    ∀ bb : Board,
      bget (l.foldl (fun bb d => flip_direction bb r c d.1 d.2 p) bb) u v = bget bb u v := by
  induction l with
  | nil => intro bb; rfl
  | cons d t ih =>
    intro bb
    rw [List.foldl_cons, ih (fun e he => hpre e (List.mem_cons_of_mem _ he)),
      hpre d (List.mem_cons_self d t)]

/-- C1: a move is valid iff `make_move` succeeds and the new board differs
from the old one at the target square and at a flipped cell along one of the
8 directions (the claim's row-major coordinates and cell values assumed). -/
theorem valid_iff_flips (b : Board) (p r c : Int) (_hwf : WFBoard b)
    (hp : p = 1 ∨ p = -1) (hr : 0 ≤ r ∧ r < 8) (hc : 0 ≤ c ∧ c < 8) :
    is_valid_move b r c p = true ↔
      ∃ b₂, make_move b r c p = some b₂ ∧
        bget b₂ r c ≠ bget b r c ∧
        ∃ d ∈ directions, ∃ k : Int, 1 ≤ k ∧
          bget b₂ (r + k * d.1) (c + k * d.2) ≠ bget b (r + k * d.1) (c + k * d.2) := by
  constructor
  · intro hv
    have hp0 : p ≠ 0 := by rcases hp with rfl | rfl <;> norm_num
    have hb0 : bget b r c = 0 := by
      by_contra h
      rw [is_valid_move, if_pos h] at hv
      cases hv
    have hany : directions.any (fun d => would_flip b r c d.1 d.2 p) = true := by
      rw [is_valid_move, if_neg (by simp [hb0])] at hv
      exact hv
    obtain ⟨d, hd, hwfd⟩ := List.any_eq_true.mp hany
    obtain ⟨j, hj8, hcells, hin_e, hend_p, hseen⟩ :=
      wouldFlipAux_run b d.1 d.2 p 8 (r + d.1) (c + d.2) false hwfd
    have hj1 : 1 ≤ j := hseen.resolve_left (by simp)
    have hmm : make_move b r c p =
        some (directions.foldl (fun bb e => flip_direction bb r c e.1 e.2 p)
          (bset b r c p)) := by
      rw [make_move, if_pos hv]
    refine ⟨_, hmm, ?_, d, hd, 1, le_refl 1, ?_⟩
    · have ho : bget (directions.foldl (fun bb e => flip_direction bb r c e.1 e.2 p)
          (bset b r c p)) r c = p := by
        rw [foldl_flip_preserve r c p r c directions
          (fun e he bb => flip_direction_preserves_origin bb r c p e he) (bset b r c p)]
        exact bget_bset_same b r c p ⟨hr.1, hr.2, hc.1, hc.2⟩
      rw [ho, hb0]
      exact hp0
    · obtain ⟨pre, post, hsplit⟩ := List.append_of_mem hd
      have hnd := directions_nodup
      rw [hsplit] at hnd
      obtain ⟨hnd_pre, hnd_cons, hdisj⟩ := List.nodup_append.mp hnd
      have hpre_dirs : ∀ e ∈ pre, e ∈ directions ∧ e ≠ d := by
        intro e he
        refine ⟨by rw [hsplit]; exact List.mem_append_left _ he, ?_⟩
        intro heq
        exact hdisj (heq ▸ he) (List.mem_cons_self d post)
      have hpost_dirs : ∀ e ∈ post, e ∈ directions ∧ e ≠ d := by
        intro e he
        refine ⟨by rw [hsplit]
                   exact List.mem_append_right _ (List.mem_cons_of_mem _ he), ?_⟩
        intro heq
        exact (List.nodup_cons.mp hnd_cons).1 (heq ▸ he)
      have hagree : ∀ k : Int, 1 ≤ k →
          bget (pre.foldl (fun bb e => flip_direction bb r c e.1 e.2 p) (bset b r c p))
              (r + k * d.1) (c + k * d.2)
            = bget b (r + k * d.1) (c + k * d.2) := by
        intro k hk
        rw [foldl_flip_preserve r c p (r + k * d.1) (c + k * d.2) pre
          (fun e he bb => flip_direction_preserves_off_ray bb r c p e d
            (hpre_dirs e he).1 hd (hpre_dirs e he).2 k hk) (bset b r c p)]
        apply bget_bset_other
        by_cases hx : r + k * d.1 = r
        · right
          intro hy
          exact ray_ne_origin d hd k hk r c ⟨hx, hy⟩
        · left
          exact hx
      have hshiftx : ∀ i : Nat, r + d.1 + (i : Int) * d.1 = r + ((i : Int) + 1) * d.1 := by
        intro i; ring
      have hshifty : ∀ i : Nat, c + d.2 + (i : Int) * d.2 = c + ((i : Int) + 1) * d.2 := by
        intro i; ring
      have hcells₁ : ∀ i : Nat, i < j →
          (0 ≤ r + d.1 + i * d.1 ∧ r + d.1 + i * d.1 < 8 ∧
            0 ≤ c + d.2 + i * d.2 ∧ c + d.2 + i * d.2 < 8) ∧
          bget (pre.foldl (fun bb e => flip_direction bb r c e.1 e.2 p) (bset b r c p))
            (r + d.1 + i * d.1) (c + d.2 + i * d.2) ≠ 0 ∧
          bget (pre.foldl (fun bb e => flip_direction bb r c e.1 e.2 p) (bset b r c p))
            (r + d.1 + i * d.1) (c + d.2 + i * d.2) ≠ p := by
        intro i hi
        have h := hcells i hi
        have hb₁ : bget (pre.foldl (fun bb e => flip_direction bb r c e.1 e.2 p)
            (bset b r c p)) (r + d.1 + i * d.1) (c + d.2 + i * d.2)
            = bget b (r + d.1 + i * d.1) (c + d.2 + i * d.2) := by
          rw [hshiftx i, hshifty i]
          exact hagree ((i : Int) + 1) (by omega)
        exact ⟨h.1, by rw [hb₁]; exact h.2.1, by rw [hb₁]; exact h.2.2⟩
      have hend₁ : bget (pre.foldl (fun bb e => flip_direction bb r c e.1 e.2 p)
          (bset b r c p)) (r + d.1 + j * d.1) (c + d.2 + j * d.2) = p := by
        rw [hshiftx j, hshifty j]
        rw [hagree ((j : Int) + 1) (by omega)]
        rw [← hshiftx j, ← hshifty j]
        exact hend_p
      have hflip := flipDirAux_run
        (pre.foldl (fun bb e => flip_direction bb r c e.1 e.2 p) (bset b r c p))
        d.1 d.2 p hp0 j 8 (r + d.1) (c + d.2) [] hj8 hcells₁ hin_e hend₁
      have h0 := (hcells₁ 0 hj1).1
      simp only [Nat.cast_zero, zero_mul, add_zero] at h0
      have hval : bget (flip_direction
          (pre.foldl (fun bb e => flip_direction bb r c e.1 e.2 p) (bset b r c p))
          r c d.1 d.2 p) (r + d.1) (c + d.2) = p := by
        rw [flip_direction, hflip]
        refine setAll_mem _ _ _ _ _ ?_ h0
        refine List.mem_append_right _ (List.mem_map.mpr ⟨0, List.mem_range.mpr hj1, ?_⟩)
        norm_num
      have hfold : directions.foldl (fun bb e => flip_direction bb r c e.1 e.2 p)
          (bset b r c p)
          = post.foldl (fun bb e => flip_direction bb r c e.1 e.2 p)
            (flip_direction
              (pre.foldl (fun bb e => flip_direction bb r c e.1 e.2 p) (bset b r c p))
              r c d.1 d.2 p) := by
        rw [hsplit, List.foldl_append, List.foldl_cons]
      have hpost_val : bget (directions.foldl (fun bb e => flip_direction bb r c e.1 e.2 p)
          (bset b r c p)) (r + d.1) (c + d.2) = p := by
        rw [hfold]
        have hstep : ∀ e ∈ post, ∀ bb : Board,
            bget (flip_direction bb r c e.1 e.2 p) (r + d.1) (c + d.2)
              = bget bb (r + d.1) (c + d.2) := by
          intro e he bb
          have := flip_direction_preserves_off_ray bb r c p e d
            (hpost_dirs e he).1 hd (hpost_dirs e he).2 1 le_rfl
          simpa using this
        rw [foldl_flip_preserve r c p (r + d.1) (c + d.2) post hstep]
        exact hval
      have horig : bget b (r + d.1) (c + d.2) ≠ p := by
        have h0c := hcells 0 hj1
        simp only [Nat.cast_zero, zero_mul, add_zero] at h0c
        exact h0c.2.2
      simp only [one_mul]
      rw [hpost_val]
      exact Ne.symm horig
  · rintro ⟨b₂, hsome, -, -⟩
    by_cases hv : is_valid_move b r c p = true
    · exact hv
    · rw [make_move, if_neg hv] at hsome
      cases hsome

/-! ## Bounds-checked variants of the board operations (claim C10)

Each variant performs exactly the same control flow as the plain embedding
but routes every `board[...]` read/write through an explicit range check,
returning `none` as soon as an index would leave the 8×8 grid. -/

def bgetC (b : Board) (x y : Int) : Option Int :=
  if 0 ≤ x ∧ x < 8 ∧ 0 ≤ y ∧ y < 8 then some (bget b x y) else none

def bsetC (b : Board) (x y v : Int) : Option Board :=
  if 0 ≤ x ∧ x < 8 ∧ 0 ≤ y ∧ y < 8 then some (bset b x y v) else none

def wouldFlipAuxC (b : Board) (dx dy player : Int) : Int → Int → Bool → Nat → Option Bool
  | _, _, _, 0 => some false
  | x, y, seen, fuel+1 =>
    if 0 ≤ x ∧ x < 8 ∧ 0 ≤ y ∧ y < 8 then
      match bgetC b x y with
      | none => none
      | some w =>
        if w = 0 then some false
        else if w = player then some seen
        else wouldFlipAuxC b dx dy player (x + dx) (y + dy) true fuel
    else some false

def would_flipC (b : Board) (row col dx dy player : Int) : Option Bool :=
  wouldFlipAuxC b dx dy player (row + dx) (col + dy) false 8

/-- The direction loop of `is_valid_move` with a checked body. -/
def anyC : List (Int × Int) → ((Int × Int) → Option Bool) → Option Bool
  | [], _ => some false
  | d :: ds, f =>
    match f d with
    | none => none
    | some true => some true
    | some false => anyC ds f

def is_valid_moveC (b : Board) (row col player : Int) : Option Bool :=
  match bgetC b row col with
  | none => none
  | some w =>
    if w ≠ 0 then some false
    else anyC directions fun d => would_flipC b row col d.1 d.2 player

def setAllC (ps : List (Int × Int)) (v : Int) (b : Board) : Option Board :=
  ps.foldlM (fun bb q => bsetC bb q.1 q.2 v) b

def flipDirAuxC (b : Board) (dx dy player : Int) :
    Int → Int → List (Int × Int) → Nat → Option Board
  | _, _, _, 0 => some b
  | x, y, toFlip, fuel+1 =>
    if 0 ≤ x ∧ x < 8 ∧ 0 ≤ y ∧ y < 8 then
      match bgetC b x y with
      | none => none
      | some w =>
        if w = 0 then some b
        else if w = player then setAllC toFlip player b
        else flipDirAuxC b dx dy player (x + dx) (y + dy) (toFlip ++ [(x, y)]) fuel
    else some b

def flip_directionC (b : Board) (row col dx dy player : Int) : Option Board :=
  flipDirAuxC b dx dy player (row + dx) (col + dy) [] 8

def make_moveC (b : Board) (row col player : Int) : Option (Option Board) :=
  match is_valid_moveC b row col player with
  | none => none
  | some false => some none
  | some true =>
    match bsetC b row col player with
    | none => none
    | some b₀ =>
      (directions.foldlM (fun bb d => flip_directionC bb row col d.1 d.2 player) b₀).map some

theorem foldlM_eq_some {α β : Type} (g : β → α → β) (f : β → α → Option β) (l : List α)
    (h : ∀ a ∈ l, ∀ bb, f bb a = some (g bb a)) :
    ∀ bb : β, l.foldlM f bb = some (l.foldl g bb) := by
  induction l with
  | nil => intro bb; rfl
  | cons a t ih =>
    intro bb
    rw [List.foldlM_cons, h a (List.mem_cons_self a t) bb]
    simpa [List.foldl_cons] using ih (fun a ha bb => h a (List.mem_cons_of_mem _ ha) bb) (g bb a)

theorem wouldFlipAuxC_eq (b : Board) (dx dy player : Int) :
    ∀ (fuel : Nat) (x y : Int) (seen : Bool),
      wouldFlipAuxC b dx dy player x y seen fuel
        = some (wouldFlipAux b dx dy player x y seen fuel) := by
  intro fuel
  induction fuel with
  | zero => intro x y seen; rfl
  | succ f ih =>
    intro x y seen
    rw [wouldFlipAuxC, wouldFlipAux]
    by_cases hin : 0 ≤ x ∧ x < 8 ∧ 0 ≤ y ∧ y < 8
    · rw [if_pos hin, if_pos hin, bgetC, if_pos hin]
      dsimp only
      by_cases h0 : bget b x y = 0
      · rw [if_pos h0, if_pos h0]
      · rw [if_neg h0, if_neg h0]
        by_cases hpp : bget b x y = player
        · rw [if_pos hpp, if_pos hpp]
        · rw [if_neg hpp, if_neg hpp]
          exact ih (x + dx) (y + dy) true
    · rw [if_neg hin, if_neg hin]

theorem anyC_eq (l : List (Int × Int)) (f : (Int × Int) → Option Bool)
    (g : (Int × Int) → Bool) (h : ∀ d ∈ l, f d = some (g d)) :
    anyC l f = some (l.any g) := by
  induction l with
  | nil => rfl
  | cons d t ih =>
    rw [anyC, h d (List.mem_cons_self d t), List.any_cons]
    cases hgd : g d
    · simpa using ih fun e he => h e (List.mem_cons_of_mem _ he)
    · rfl

theorem setAllC_eq (ps : List (Int × Int)) (v : Int)
    (h : ∀ q ∈ ps, 0 ≤ q.1 ∧ q.1 < 8 ∧ 0 ≤ q.2 ∧ q.2 < 8) (b : Board) :
    setAllC ps v b = some (setAll ps v b) := by
  unfold setAllC setAll
  exact foldlM_eq_some _ _ ps (fun q hq bb => by rw [bsetC, if_pos (h q hq)]) b

theorem flipDirAuxC_eq (b : Board) (dx dy player : Int) :
    ∀ (fuel : Nat) (x y : Int) (acc : List (Int × Int)),
      (∀ q ∈ acc, 0 ≤ q.1 ∧ q.1 < 8 ∧ 0 ≤ q.2 ∧ q.2 < 8) →
      flipDirAuxC b dx dy player x y acc fuel
        = some (flipDirAux b dx dy player x y acc fuel) := by
  intro fuel
  induction fuel with
  | zero => intro x y acc _; rfl
  | succ f ih =>
    intro x y acc hacc
    rw [flipDirAuxC, flipDirAux]
    by_cases hin : 0 ≤ x ∧ x < 8 ∧ 0 ≤ y ∧ y < 8
    · rw [if_pos hin, if_pos hin, bgetC, if_pos hin]
      dsimp only
      by_cases h0 : bget b x y = 0
      · rw [if_pos h0, if_pos h0]
      · rw [if_neg h0, if_neg h0]
        by_cases hpp : bget b x y = player
        · rw [if_pos hpp, if_pos hpp]
          exact setAllC_eq acc player hacc b
        · rw [if_neg hpp, if_neg hpp]
          refine ih (x + dx) (y + dy) (acc ++ [(x, y)]) ?_
          intro q hq
          rcases List.mem_append.mp hq with hl | hr
          · exact hacc q hl
          · have : q = (x, y) := by simpa using hr
            rw [this]
            exact hin
    · rw [if_neg hin, if_neg hin]

theorem flip_directionC_eq (b : Board) (row col dx dy player : Int) :
    flip_directionC b row col dx dy player = some (flip_direction b row col dx dy player) :=
  flipDirAuxC_eq b dx dy player 8 (row + dx) (col + dy) [] (by intro q hq; cases hq)

theorem is_valid_moveC_eq (b : Board) (row col player : Int)
    (hr : 0 ≤ row ∧ row < 8) (hc : 0 ≤ col ∧ col < 8) :
    is_valid_moveC b row col player = some (is_valid_move b row col player) := by
  rw [is_valid_moveC, is_valid_move, bgetC, if_pos ⟨hr.1, hr.2, hc.1, hc.2⟩]
  dsimp only
  by_cases h0 : bget b row col ≠ 0
  · rw [if_pos h0, if_pos h0]
  · rw [if_neg h0, if_neg h0]
    exact anyC_eq directions _ _ fun d _ =>
      wouldFlipAuxC_eq b d.1 d.2 player 8 (row + d.1) (col + d.2) false

/-- C10: with coordinates in `[0,7]`, every board access performed by
`is_valid_move` and `make_move` (including the outward scans of
`_would_flip` and `_flip_direction`) is within the 8×8 grid: the fully
bounds-checked variants never report an out-of-range access and compute
the same results. -/
theorem accesses_in_bounds (b : Board) (row col player : Int)
    (hr : 0 ≤ row ∧ row < 8) (hc : 0 ≤ col ∧ col < 8) :
    is_valid_moveC b row col player = some (is_valid_move b row col player) ∧
    make_moveC b row col player = some (make_move b row col player) := by
  refine ⟨is_valid_moveC_eq b row col player hr hc, ?_⟩
  rw [make_moveC, is_valid_moveC_eq b row col player hr hc, make_move]
  by_cases hv : is_valid_move b row col player = true
  · rw [hv, if_pos rfl]
    dsimp only
    rw [bsetC, if_pos ⟨hr.1, hr.2, hc.1, hc.2⟩]
    dsimp only
    rw [foldlM_eq_some (fun bb d => flip_direction bb row col d.1 d.2 player)
      (fun bb d => flip_directionC bb row col d.1 d.2 player) directions
      (fun d _ bb => flip_directionC_eq bb row col d.1 d.2 player)]
    rfl
  · rw [if_neg hv]
    have : is_valid_move b row col player = false := by
      cases h : is_valid_move b row col player
      · rfl
      · exact absurd h hv
    rw [this]

/-! ## A store model of `make_move`'s copy-on-write behaviour (claim C4)

The Python receiver owns a `numpy` array on the heap and
`make_move` starts from `OthelloState(self.board.copy())`: a fresh array
receives a copy, and every subsequent write of the method body (the target
square and the `_flip_direction` flips) goes through the fresh array.  The
store maps addresses to grids, so the model distinguishes the copy from an
alias: mutating through the fresh address must leave the receiver's address
untouched. -/

structure Store where
  mem : Nat → Board
  next : Nat

/-- Overwrite the array at address `a`. -/
def Store.write (st : Store) (a : Nat) (g : Board) : Store :=
  ⟨fun x => if x = a then g else st.mem x, st.next⟩

/-- Allocate a fresh array holding a copy of the grid `g`
(`self.board.copy()`); the new address is `st.next`. -/
def Store.alloc (st : Store) (g : Board) : Store :=
  ⟨fun x => if x = st.next then g else st.mem x, st.next + 1⟩

/-- `OthelloState.make_move` at store level: copy the receiver's board to
the fresh address `st.next`, set the target cell through that address, then
run the eight `_flip_direction` mutations through that address. -/
def makeMoveHeap (st : Store) (recv : Nat) (row col player : Int) : Store × Option Nat :=
  if is_valid_move (st.mem recv) row col player = true then
    (directions.foldl
      (fun s d => s.write st.next (flip_direction (s.mem st.next) row col d.1 d.2 player))
      ((st.alloc (st.mem recv)).write st.next
        (bset ((st.alloc (st.mem recv)).mem st.next) row col player)),
     some st.next)
  else (st, none)

theorem Store.write_mem_self (st : Store) (a : Nat) (g : Board) :
    (st.write a g).mem a = g := by
  simp [Store.write]

theorem Store.write_mem_ne (st : Store) (a x : Nat) (g : Board) (h : x ≠ a) :
    (st.write a g).mem x = st.mem x := by
  simp [Store.write, h]

theorem foldl_write_mem_ne (a x : Nat) (h : x ≠ a) (G : Board → (Int × Int) → Board) :
    ∀ (l : List (Int × Int)) (st : Store),
      (l.foldl (fun s d => s.write a (G (s.mem a) d)) st).mem x = st.mem x := by
  intro l
  induction l with
  | nil => intro st; rfl
  | cons d t ih =>
    intro st
    rw [List.foldl_cons, ih, Store.write_mem_ne _ _ _ _ h]

theorem foldl_write_mem_self (a : Nat) (G : Board → (Int × Int) → Board) :
    ∀ (l : List (Int × Int)) (st : Store),
      (l.foldl (fun s d => s.write a (G (s.mem a) d)) st).mem a = l.foldl G (st.mem a) := by
  intro l
  induction l with
  | nil => intro st; rfl
  | cons d t ih =>
    intro st
    rw [List.foldl_cons, ih, List.foldl_cons, Store.write_mem_self]

/-- C4: for a legal move, the store-level `make_move` never mutates its
receiver — every cell of the original board is unchanged — and the fresh
array returned holds exactly the board computed by the pure `make_move`. -/
theorem make_move_no_mutation (st : Store) (recv : Nat) (row col player : Int)
    (hrecv : recv < st.next) (hv : is_valid_move (st.mem recv) row col player = true) :
    (∀ i j : Fin 8, (makeMoveHeap st recv row col player).1.mem recv i j = st.mem recv i j) ∧
    (makeMoveHeap st recv row col player).2 = some st.next ∧
    make_move (st.mem recv) row col player =
      some ((makeMoveHeap st recv row col player).1.mem st.next) := by
  have hne : recv ≠ st.next := by omega
  have halloc_recv : (st.alloc (st.mem recv)).mem recv = st.mem recv := by
    simp [Store.alloc, hne]
  have halloc_new : (st.alloc (st.mem recv)).mem st.next = st.mem recv := by
    simp [Store.alloc]
  refine ⟨?_, ?_, ?_⟩
  · intro i j
    rw [makeMoveHeap, if_pos hv]
    dsimp only
    rw [foldl_write_mem_ne st.next recv hne
      (fun g d => flip_direction g row col d.1 d.2 player)]
    rw [Store.write_mem_ne _ _ _ _ hne, halloc_recv]
  · rw [makeMoveHeap, if_pos hv]
  · rw [makeMoveHeap, if_pos hv]
    dsimp only
    rw [foldl_write_mem_self st.next
      (fun g d => flip_direction g row col d.1 d.2 player)]
    rw [Store.write_mem_self, halloc_new]
    rw [make_move, if_pos hv]

/-! ## The Python `heapq` frontier

`a_star_search` keeps its frontier in a `heapq` binary min-heap whose
comparisons go through `SearchNode.__lt__` (`f_score` only).  The functions
below are the CPython `heapq.heappush` / `heapq.heappop` algorithms
(`_siftdown` / `_siftup` included) on a list used as the heap array, generic
in the element type and the `__lt__` comparison. -/

section Heapq

variable {α : Type} (lt : α → α → Bool)

/-- CPython `heapq._siftdown(heap, startpos, pos)`: the item bubbles towards
the root while strictly smaller than its parent; parents shift down and the
item lands at the final position. -/
def siftdownLoop (heap : List α) (newitem : α) (startpos pos : Nat) : List α :=
  if startpos < pos then
    match heap[(pos - 1) / 2]? with
    | none => heap.set pos newitem
    | some parent =>
      if lt newitem parent then
        siftdownLoop (heap.set pos parent) newitem startpos ((pos - 1) / 2)
      else heap.set pos newitem
  else heap.set pos newitem
termination_by pos
decreasing_by omega

/-- CPython `heapq.heappush`: append, then sift the new item down to root. -/
def heappush (heap : List α) (item : α) : List α :=
  siftdownLoop lt (heap ++ [item]) item 0 heap.length

/-- CPython `heapq._siftup(heap, pos)` (with explicit `newitem`): walk the
smaller-child path down to a leaf, shifting children up, then `_siftdown`. -/
def siftupLoop (heap : List α) (newitem : α) (startpos pos : Nat) : List α :=
  if h : 2 * pos + 1 < heap.length then
    let childpos :=
      if 2 * pos + 2 < heap.length ∧
          ¬lt (heap.getD (2 * pos + 1) newitem) (heap.getD (2 * pos + 2) newitem)
        then 2 * pos + 2 else 2 * pos + 1
    siftupLoop (heap.set pos (heap.getD childpos newitem)) newitem startpos childpos
  else siftdownLoop lt (heap.set pos newitem) newitem startpos pos
termination_by heap.length - pos
decreasing_by
  simp only [List.length_set]
  split <;> omega

/-- CPython `heapq.heappop`: remove the last element; if the heap remains
non-empty, report the root, move the last element to the root and sift it
up.  `none` is the empty-heap case (guarded by `while frontier:` in the
search). -/
def heappop (heap : List α) : Option (α × List α) :=
  match heap.dropLast, heap.getLast? with
  | _, none => none
  | [], some lastelt => some (lastelt, [])
  | r :: rtail, some lastelt => some (r, siftupLoop lt (lastelt :: rtail) lastelt 0 0)

/-- The push loop of node expansion. -/
def pushList (heap : List α) (cs : List α) : List α := cs.foldl (heappush lt) heap

/-! ### The heap operations permute the stored multiset -/

theorem set_perm (l : List α) (i : Nat) (h : i < l.length) (a : α) :
    (l.set i a).Perm (a :: l.eraseIdx i) := by
  induction l generalizing i with
  | nil => cases h
  | cons x xs ih =>
    match i with
    | 0 => simp
    | Nat.succ k =>
      rw [List.set_cons_succ, List.eraseIdx_cons_succ]
      exact ((ih k (by simpa using h)).cons x).trans (List.Perm.swap a x _)

theorem perm_cons_eraseIdx (l : List α) (i : Nat) (a : α) (ha : l[i]? = some a) :
    l.Perm (a :: l.eraseIdx i) := by
  induction l generalizing i with
  | nil => cases ha
  | cons x xs ih =>
    match i with
    | 0 =>
      rw [List.getElem?_cons_zero] at ha
      cases ha
      simp
    | Nat.succ k =>
      rw [List.getElem?_cons_succ] at ha
      rw [List.eraseIdx_cons_succ]
      exact ((ih k ha).cons x).trans (List.Perm.swap a x _)

theorem set_set_perm (l : List α) (i j : Nat) (hij : i ≠ j) (hi : i < l.length)
    (hj : j < l.length) (p c : α) (hp : l[j]? = some p) :
    ((l.set i p).set j c).Perm (l.set i c) := by
  induction l generalizing i j with
  | nil => cases hi
  | cons x xs ih =>
    match i, j with
    | 0, 0 => exact absurd rfl hij
    | 0, Nat.succ k =>
      rw [List.getElem?_cons_succ] at hp
      rw [List.set_cons_zero, List.set_cons_succ, List.set_cons_zero]
      have h1 : (xs.set k c).Perm (c :: xs.eraseIdx k) :=
        set_perm xs k (by simpa using hj) c
      have h2 : xs.Perm (p :: xs.eraseIdx k) := perm_cons_eraseIdx xs k p hp
      exact ((h1.cons p).trans ((List.Perm.swap c p _).trans (h2.symm.cons c)))
    | Nat.succ k, 0 =>
      rw [List.getElem?_cons_zero] at hp
      cases hp
      rw [List.set_cons_succ, List.set_cons_zero, List.set_cons_succ]
      have h1 : (xs.set k p).Perm (p :: xs.eraseIdx k) :=
        set_perm xs k (by simpa using hi) p
      have h2 : (xs.set k c).Perm (c :: xs.eraseIdx k) :=
        set_perm xs k (by simpa using hi) c
      exact (h1.cons c).trans ((List.Perm.swap p c _).trans (h2.symm.cons p))
    | Nat.succ k, Nat.succ k2 =>
      rw [List.getElem?_cons_succ] at hp
      rw [List.set_cons_succ, List.set_cons_succ, List.set_cons_succ]
      exact (ih k k2 (by omega) (by simpa using hi) (by simpa using hj) hp).cons x

theorem siftdownLoop_perm :
    ∀ (pos : Nat) (heap : List α) (c : α) (s : Nat), pos < heap.length →
      (siftdownLoop lt heap c s pos).Perm (heap.set pos c) := by
  intro pos
  induction pos using Nat.strong_induction_on with
  | _ pos ih =>
    intro heap c s hpos
    rw [siftdownLoop]
    by_cases hs : s < pos
    · rw [if_pos hs]
      have hpar : (pos - 1) / 2 < heap.length := by omega
      rw [List.getElem?_eq_getElem hpar]
      dsimp only
      by_cases hcmp : lt c heap[(pos - 1) / 2] = true
      · rw [if_pos hcmp]
        refine (ih ((pos - 1) / 2) (by omega) _ c s (by simpa using hpar)).trans ?_
        exact set_set_perm heap pos ((pos - 1) / 2) (by omega) hpos hpar _ c
          (List.getElem?_eq_getElem hpar)
      · rw [if_neg hcmp]
    · rw [if_neg hs]

theorem siftupLoop_perm :
    ∀ (n : Nat) (heap : List α) (c : α) (s pos : Nat), heap.length - pos = n →
      pos < heap.length → (siftupLoop lt heap c s pos).Perm (heap.set pos c) := by
  intro n
  induction n using Nat.strong_induction_on with
  | _ n ih =>
    intro heap c s pos hn hpos
    rw [siftupLoop]
    by_cases h : 2 * pos + 1 < heap.length
    · rw [dif_pos h]
      dsimp only
      by_cases hcnd : 2 * pos + 2 < heap.length ∧
          ¬lt (heap.getD (2 * pos + 1) c) (heap.getD (2 * pos + 2) c) = true
      · rw [if_pos hcnd]
        have hcp : 2 * pos + 2 < heap.length := hcnd.1
        refine (ih (heap.length - (2 * pos + 2)) (by omega) _ c s (2 * pos + 2)
          (by simp) (by simpa using hcp)).trans ?_
        exact set_set_perm heap pos (2 * pos + 2) (by omega) hpos hcp _ c
          (by rw [List.getElem?_eq_getElem hcp, List.getD_eq_getElem heap c hcp])
      · rw [if_neg hcnd]
        refine (ih (heap.length - (2 * pos + 1)) (by omega) _ c s (2 * pos + 1)
          (by simp) (by simpa using h)).trans ?_
        exact set_set_perm heap pos (2 * pos + 1) (by omega) hpos h _ c
          (by rw [List.getElem?_eq_getElem h, List.getD_eq_getElem heap c h])
    · rw [dif_neg h]
      refine (siftdownLoop_perm lt pos _ c s (by simpa using hpos)).trans ?_
      rw [List.set_set]

theorem set_append_len (l : List α) (a b : α) : (l ++ [a]).set l.length b = l ++ [b] := by
  induction l with
  | nil => rfl
  | cons x xs ih => simp [ih]

theorem heappush_perm (heap : List α) (c : α) : (heappush lt heap c).Perm (heap ++ [c]) := by
  have h := siftdownLoop_perm lt heap.length (heap ++ [c]) c 0 (by simp)
  rw [set_append_len] at h
  exact h

theorem heappop_spec (heap : List α) (hne : heap ≠ []) :
    ∃ x h', heappop lt heap = some (x, h') ∧ heap[0]? = some x ∧ heap.Perm (x :: h') := by
  rcases List.eq_nil_or_concat heap with rfl | ⟨l, a, rfl⟩
  · exact absurd rfl hne
  rw [List.concat_eq_append]
  cases l with
  | nil =>
    refine ⟨a, [], ?_, by simp, by simp⟩
    rw [heappop, List.dropLast_concat, List.getLast?_concat]
  | cons r rtail =>
    refine ⟨r, siftupLoop lt (a :: rtail) a 0 0, ?_, ?_, ?_⟩
    · rw [heappop, List.dropLast_concat, List.getLast?_concat]
    · rw [List.getElem?_append_left (by simp), List.getElem?_cons_zero]
    · have hperm : (siftupLoop lt (a :: rtail) a 0 0).Perm (a :: rtail) := by
        have h := siftupLoop_perm lt ((a :: rtail).length - 0) (a :: rtail) a 0 0 rfl (by simp)
        rw [List.set_cons_zero] at h
        exact h
      rw [List.cons_append]
      exact ((List.perm_append_singleton a rtail).cons r).trans (hperm.symm.cons r)

theorem heappop_nil : heappop lt ([] : List α) = none := rfl

theorem pushList_perm : ∀ (cs heap : List α), (pushList lt heap cs).Perm (heap ++ cs) := by
  intro cs
  induction cs with
  | nil => intro heap; simp [pushList]
  | cons c t ih =>
    intro heap
    have h1 : pushList lt heap (c :: t) = pushList lt (heappush lt heap c) t := rfl
    rw [h1]
    refine (ih (heappush lt heap c)).trans ?_
    refine ((heappush_perm lt heap c).append_right t).trans ?_
    rw [List.append_assoc, List.singleton_append]

/-! ### Which element ends at the root

With `__lt__` a strict comparison by an integer key, a pushed item reaches
the root only when strictly smaller than the current root, so pushing a
batch leaves the earliest minimal-key element of the batch at `heap[0]` —
this is the tie-breaking behaviour claim C2 relies on. -/

variable (key : α → Int)

theorem siftdownLoop_head_lt (hlt : ∀ a b, lt a b = decide (key a < key b)) :
    ∀ (pos : Nat) (heap : List α) (c : α), pos < heap.length →
      (∀ j, j < pos → ∀ a, heap[j]? = some a → key c < key a) →
      (siftdownLoop lt heap c 0 pos)[0]? = some c := by
  intro pos
  induction pos using Nat.strong_induction_on with
  | _ pos ih =>
    intro heap c hpos hsmall
    rw [siftdownLoop]
    by_cases hs : 0 < pos
    · rw [if_pos hs]
      have hpar : (pos - 1) / 2 < heap.length := by omega
      rw [List.getElem?_eq_getElem hpar]
      dsimp only
      have hklt : key c < key heap[(pos - 1) / 2] :=
        hsmall ((pos - 1) / 2) (by omega) _ (List.getElem?_eq_getElem hpar)
      rw [hlt, if_pos (decide_eq_true hklt)]
      refine ih ((pos - 1) / 2) (by omega) _ c (by simpa using hpar) ?_
      intro j hj a ha
      rw [List.getElem?_set_ne (show pos ≠ j by omega)] at ha
      exact hsmall j (by omega) a ha
    · rw [if_neg hs]
      have hp0 : pos = 0 := by omega
      subst hp0
      exact List.getElem?_set_self (by omega)

theorem siftdownLoop_head_stop (hlt : ∀ a b, lt a b = decide (key a < key b)) :
    ∀ (pos : Nat) (heap : List α) (c r : α), 0 < pos → pos < heap.length →
      heap[0]? = some r → ¬(key c < key r) →
      (∀ (j : Nat) (a : α), heap[j]? = some a → ¬(key a < key r)) →
      (siftdownLoop lt heap c 0 pos)[0]? = some r := by
  intro pos
  induction pos using Nat.strong_induction_on with
  | _ pos ih =>
    intro heap c r h0 hpos hr hge hmin
    rw [siftdownLoop, if_pos h0]
    have hpar : (pos - 1) / 2 < heap.length := by omega
    rw [List.getElem?_eq_getElem hpar]
    dsimp only
    by_cases hcmp : key c < key heap[(pos - 1) / 2]
    · rw [hlt, if_pos (decide_eq_true hcmp)]
      have hpn : (pos - 1) / 2 ≠ 0 := by
        intro hz
        have he : heap[(pos - 1) / 2]? = some r := by rw [hz]; exact hr
        have he2 := (List.getElem?_eq_getElem hpar).symm.trans he
        rw [Option.some.injEq] at he2
        rw [he2] at hcmp
        exact hge hcmp
      refine ih ((pos - 1) / 2) (by omega) _ c r (by omega) (by simpa using hpar) ?_ hge ?_
      · rw [List.getElem?_set_ne (show pos ≠ 0 by omega)]
        exact hr
      · intro j a ha
        by_cases hj : pos = j
        · rw [← hj, List.getElem?_set_self hpos] at ha
          cases ha
          exact hmin _ _ (List.getElem?_eq_getElem hpar)
        · rw [List.getElem?_set_ne hj] at ha
          exact hmin j a ha
    · rw [hlt, if_neg (by simpa using hcmp)]
      rw [List.getElem?_set_ne (show pos ≠ 0 by omega)]
      exact hr

theorem heappush_head (hlt : ∀ a b, lt a b = decide (key a < key b))
    (heap : List α) (c r : α) (hr : heap[0]? = some r)
    (hmin : ∀ (j : Nat) (a : α), heap[j]? = some a → ¬(key a < key r)) :
    (heappush lt heap c)[0]? = some (if key c < key r then c else r) := by
  have hlen : 0 < heap.length := by
    by_contra h
    rw [List.getElem?_eq_none (by omega)] at hr
    cases hr
  unfold heappush
  by_cases hcr : key c < key r
  · rw [if_pos hcr]
    refine siftdownLoop_head_lt lt key hlt heap.length (heap ++ [c]) c (by simp) ?_
    intro j hj a ha
    rw [List.getElem?_append_left hj] at ha
    have := hmin j a ha
    omega
  · rw [if_neg hcr]
    refine siftdownLoop_head_stop lt key hlt heap.length (heap ++ [c]) c r hlen
      (by simp) ?_ hcr ?_
    · rw [List.getElem?_append_left hlen]
      exact hr
    · intro j a ha
      by_cases hjl : j < heap.length
      · rw [List.getElem?_append_left hjl] at ha
        exact hmin j a ha
      · rw [List.getElem?_append_right (show heap.length ≤ j by omega)] at ha
        have hk0 : j - heap.length = 0 := by
          have hb := (List.getElem?_eq_some.mp ha).1
          simp only [List.length_singleton] at hb
          omega
        rw [hk0, List.getElem?_cons_zero] at ha
        rw [Option.some.injEq] at ha
        rw [← ha]
        exact hcr

theorem pushList_head_min (hlt : ∀ a b, lt a b = decide (key a < key b)) :
    ∀ (cs : List α) (heap : List α) (r : α),
      heap[0]? = some r →
      (∀ (j : Nat) (a : α), heap[j]? = some a → ¬(key a < key r)) →
      (pushList lt heap cs)[0]?
          = some (cs.foldl (fun cur c => if key c < key cur then c else cur) r) ∧
        ∀ (j : Nat) (a : α), (pushList lt heap cs)[j]? = some a →
          ¬(key a < key (cs.foldl (fun cur c => if key c < key cur then c else cur) r)) := by
  intro cs
  induction cs with
  | nil => intro heap r hr hmin; exact ⟨hr, hmin⟩
  | cons c t ih =>
    intro heap r hr hmin
    have hpush := heappush_head lt key hlt heap c r hr hmin
    have hmin2 : ∀ (j : Nat) (a : α), (heappush lt heap c)[j]? = some a →
        ¬(key a < key (if key c < key r then c else r)) := by
      intro j a ha
      obtain ⟨hb, hv⟩ := List.getElem?_eq_some.mp ha
      have hamem : a ∈ heappush lt heap c := hv ▸ List.getElem_mem hb
      have hamem2 : a ∈ heap ++ [c] := (heappush_perm lt heap c).mem_iff.mp hamem
      rcases List.mem_append.mp hamem2 with hh | hc
      · obtain ⟨n, hn⟩ := List.getElem?_of_mem hh
        have := hmin n a hn
        split <;> omega
      · have hac : a = c := by simpa using hc
        rw [hac]
        split <;> omega
    have hres := ih (heappush lt heap c) (if key c < key r then c else r) hpush hmin2
    simpa [pushList, List.foldl_cons] using hres

/-- The running-minimum fold keeps the earliest element attaining the
minimal key: its result sits at some index `i` of `r :: cs`, no element has
a smaller key, and every element before index `i` has a strictly larger
key. -/
theorem foldlMin_spec :
    ∀ (cs : List α) (r : α),
      ∃ i : Nat, (r :: cs)[i]? =
          some (cs.foldl (fun cur c => if key c < key cur then c else cur) r) ∧
        (∀ (j : Nat) (a : α), (r :: cs)[j]? = some a →
          key (cs.foldl (fun cur c => if key c < key cur then c else cur) r) ≤ key a) ∧
        (∀ (j : Nat) (a : α), j < i → (r :: cs)[j]? = some a →
          key (cs.foldl (fun cur c => if key c < key cur then c else cur) r) < key a) := by
  intro cs
  induction cs with
  | nil =>
    intro r
    refine ⟨0, by simp, ?_, ?_⟩
    · intro j a ha
      match j with
      | 0 =>
        rw [List.getElem?_cons_zero] at ha
        rw [Option.some.injEq] at ha
        rw [List.foldl_nil, ha]
      | Nat.succ k =>
        rw [List.getElem?_cons_succ] at ha
        cases ha
    · intro j a hj _
      exact absurd hj (Nat.not_lt_zero j)
  | cons c t ih =>
    intro r
    simp only [List.foldl_cons]
    obtain ⟨i2, h1, h2, h3⟩ := ih (if key c < key r then c else r)
    by_cases hcr : key c < key r
    · rw [if_pos hcr] at h1 h2 h3 ⊢
      refine ⟨i2 + 1, ?_, ?_, ?_⟩
      · rw [List.getElem?_cons_succ]
        exact h1
      · intro j a ha
        match j with
        | 0 =>
          rw [List.getElem?_cons_zero, Option.some.injEq] at ha
          have hc0 := h2 0 c (List.getElem?_cons_zero)
          rw [← ha]
          omega
        | Nat.succ k =>
          rw [List.getElem?_cons_succ] at ha
          exact h2 k a ha
      · intro j a hj ha
        match j with
        | 0 =>
          rw [List.getElem?_cons_zero, Option.some.injEq] at ha
          have hc0 := h2 0 c (List.getElem?_cons_zero)
          rw [← ha]
          omega
        | Nat.succ k =>
          rw [List.getElem?_cons_succ] at ha
          exact h3 k a (by omega) ha
    · rw [if_neg hcr] at h1 h2 h3 ⊢
      match i2, h1 with
      | 0, h1 =>
        rw [List.getElem?_cons_zero, Option.some.injEq] at h1
        refine ⟨0, ?_, ?_, ?_⟩
        · rw [List.getElem?_cons_zero, ← h1]
        · intro j a ha
          match j with
          | 0 =>
            rw [List.getElem?_cons_zero, Option.some.injEq] at ha
            rw [← ha, ← h1]
          | 1 =>
            rw [List.getElem?_cons_succ, List.getElem?_cons_zero, Option.some.injEq] at ha
            have hr0 := h2 0 r (List.getElem?_cons_zero)
            rw [← ha]
            omega
          | Nat.succ (Nat.succ k) =>
            rw [List.getElem?_cons_succ, List.getElem?_cons_succ] at ha
            exact h2 (k + 1) a (by rw [List.getElem?_cons_succ]; exact ha)
        · intro j a hj _
          exact absurd hj (Nat.not_lt_zero j)
      | Nat.succ k2, h1 =>
        rw [List.getElem?_cons_succ] at h1
        refine ⟨k2 + 2, ?_, ?_, ?_⟩
        · rw [List.getElem?_cons_succ, List.getElem?_cons_succ]
          exact h1
        · intro j a ha
          match j with
          | 0 =>
            rw [List.getElem?_cons_zero, Option.some.injEq] at ha
            rw [← ha]
            exact h2 0 r (List.getElem?_cons_zero)
          | 1 =>
            rw [List.getElem?_cons_succ, List.getElem?_cons_zero, Option.some.injEq] at ha
            have hr0 := h2 0 r (List.getElem?_cons_zero)
            rw [← ha]
            omega
          | Nat.succ (Nat.succ k) =>
            rw [List.getElem?_cons_succ, List.getElem?_cons_succ] at ha
            exact h2 (k + 1) a (by rw [List.getElem?_cons_succ]; exact ha)
        · intro j a hj ha
          match j with
          | 0 =>
            rw [List.getElem?_cons_zero, Option.some.injEq] at ha
            have hlt0 := h3 0 r (by omega) (List.getElem?_cons_zero)
            rw [← ha]
            omega
          | 1 =>
            rw [List.getElem?_cons_succ, List.getElem?_cons_zero, Option.some.injEq] at ha
            have hlt0 := h3 0 r (by omega) (List.getElem?_cons_zero)
            rw [← ha]
            omega
          | Nat.succ (Nat.succ k) =>
            rw [List.getElem?_cons_succ, List.getElem?_cons_succ] at ha
            exact h3 (k + 1) a (by omega) (by rw [List.getElem?_cons_succ]; exact ha)

end Heapq

/-! ## The search engine (`OthelloAI.a_star_search`) -/

/-- `SearchNode` of `src/main.py` with its four fields.  Every `f_score` the
search produces is the integer `g_score + 1 + h_score`, so `Int` replaces
Python's float; `g_score` counts plies. -/
structure SearchNode where
  f_score : Int
  g_score : Nat
  state : Board
  path : List (Int × Int)
deriving DecidableEq

/-- `SearchNode.__lt__`: comparison by `f_score` only. -/
def ltNode (a b : SearchNode) : Bool := decide (a.f_score < b.f_score)

theorem ltNode_key (a b : SearchNode) :
    ltNode a b = decide (a.f_score < b.f_score) := rfl

/-- The body of the `for move in moves:` loop of `a_star_search` applied to
one popped node: the list of successor nodes pushed onto the frontier, in
the (row-major) enumeration order of `get_valid_moves`.  The mover is taken
by depth parity, the `None` guard of `make_move` mirrors line 142, and
`new_path = path + [move] if not path else path` mirrors line 145. -/
def expandChildren (p : Int) (g : Nat) (b : Board) (path : List (Int × Int)) :
    List SearchNode :=
  (get_valid_moves b (if g % 2 = 0 then p else -p)).filterMap fun m =>
    match make_move b m.1 m.2 (if g % 2 = 0 then p else -p) with
    | none => none
    | some s =>
      some ⟨(g : Int) + 1 + (if p = -1 then -(evaluate s) else evaluate s), g + 1, s,
        if path.isEmpty then path ++ [m] else path⟩

/-- Result of one iteration of the `while frontier:` loop. -/
inductive StepRes where
  | done : Option (Int × Int) → StepRes
  | next : List SearchNode → List Board → StepRes

/-- One iteration of the `while frontier:` loop of `a_star_search`
(lines 120–149): pop the lowest-`f_score` node; return `path[0]` (or `None`)
at the depth cutoff; drop the node when its board fingerprint was already
explored (the `str(board.tobytes())` key compares exactly the 64 cell
values, so a list of boards with board equality models the set of
fingerprints); otherwise mark explored and push all successors. -/
def aStarStep (p : Int) (maxDepth : Nat) (frontier : List SearchNode)
    (explored : List Board) : StepRes :=
  match heappop ltNode frontier with
  | none => StepRes.done none
  | some (node, rest) =>
    if maxDepth ≤ node.g_score then
      StepRes.done (match node.path with
        | [] => none
        | m :: _ => some m)
    else if node.state ∈ explored then StepRes.next rest explored
    else
      StepRes.next
        (pushList ltNode rest (expandChildren p node.g_score node.state node.path))
        (node.state :: explored)

/-- Weight of a frontier node for the termination measure: children weigh
strictly less than the node they replace. -/
def nodeWeight (maxD : Nat) (n : SearchNode) : Nat := 65 ^ (maxD + 1 - n.g_score)

def frontierMeasure (maxD : Nat) (frontier : List SearchNode) : Nat :=
  (frontier.map (nodeWeight maxD)).sum

theorem sum_map_eq_length_mul {β : Type} (l : List β) (f : β → Nat) (k : Nat)
    (h : ∀ x ∈ l, f x = k) : (l.map f).sum = l.length * k := by
  induction l with
  | nil => simp
  | cons x t ih =>
    rw [List.map_cons, List.sum_cons, ih (fun x hx => h x (List.mem_cons_of_mem _ hx)),
      h x (List.mem_cons_self x t), List.length_cons]
    ring

theorem get_valid_moves_length_le (b : Board) (q : Int) :
    (get_valid_moves b q).length ≤ 64 := by
  rw [get_valid_moves, List.length_flatMap]
  have h8 : ∀ x ∈ (List.range 8).map (List.length ∘ fun i : Nat =>
      (List.range 8).filterMap fun j : Nat =>
        if is_valid_move b i j q = true then some ((i : Int), (j : Int)) else none),
      x ≤ 8 := by
    intro x hx
    obtain ⟨i, _, hix⟩ := List.mem_map.mp hx
    rw [← hix]
    exact le_trans (List.length_filterMap_le _ _) (by simp)
  have := List.sum_le_card_nsmul _ 8 h8
  simpa using this

theorem expandChildren_length_le (p : Int) (g : Nat) (b : Board) (path : List (Int × Int)) :
    (expandChildren p g b path).length ≤ 64 :=
  le_trans (List.length_filterMap_le _ _) (get_valid_moves_length_le b _)

/-- Membership in the expansion list, characterised by the source move. -/
theorem expandChildren_mem (p : Int) (g : Nat) (b : Board) (path : List (Int × Int))
    (n : SearchNode) :
    n ∈ expandChildren p g b path ↔
      ∃ m ∈ get_valid_moves b (if g % 2 = 0 then p else -p),
        ∃ s, make_move b m.1 m.2 (if g % 2 = 0 then p else -p) = some s ∧
          n = ⟨(g : Int) + 1 + (if p = -1 then -(evaluate s) else evaluate s), g + 1, s,
            if path.isEmpty then path ++ [m] else path⟩ := by
  rw [expandChildren]
  constructor
  · intro hn
    obtain ⟨m, hm, hf⟩ := List.mem_filterMap.mp hn
    cases hmk : make_move b m.1 m.2 (if g % 2 = 0 then p else -p) with
    | none => rw [hmk] at hf; cases hf
    | some s =>
      rw [hmk] at hf
      rw [Option.some.injEq] at hf
      exact ⟨m, hm, s, hmk, hf.symm⟩
  · rintro ⟨m, hm, s, hmk, rfl⟩
    exact List.mem_filterMap.mpr ⟨m, hm, by rw [hmk]⟩

theorem expandChildren_g (p : Int) (g : Nat) (b : Board) (path : List (Int × Int)) :
    ∀ n ∈ expandChildren p g b path, n.g_score = g + 1 := by
  intro n hn
  obtain ⟨m, _, s, _, rfl⟩ := (expandChildren_mem p g b path n).mp hn
  rfl

theorem aStarStep_measure (p : Int) (maxD : Nat) (frontier : List SearchNode)
    (explored : List Board) (f2 : List SearchNode) (e2 : List Board)
    (h : aStarStep p maxD frontier explored = StepRes.next f2 e2) :
    frontierMeasure maxD f2 < frontierMeasure maxD frontier := by
  rw [aStarStep] at h
  cases hpop : heappop ltNode frontier with
  | none => rw [hpop] at h; cases h
  | some pr =>
    obtain ⟨node, rest⟩ := pr
    rw [hpop] at h
    dsimp only at h
    have hne : frontier ≠ [] := by
      intro hnil
      rw [hnil, heappop_nil] at hpop
      cases hpop
    obtain ⟨x, h2, hx, hx0, hperm⟩ := heappop_spec ltNode frontier hne
    rw [hpop, Option.some.injEq, Prod.mk.injEq] at hx
    obtain ⟨hx1, hx2⟩ := hx
    rw [← hx1, ← hx2] at hperm
    have hmeq : frontierMeasure maxD frontier
        = nodeWeight maxD node + frontierMeasure maxD rest := by
      unfold frontierMeasure
      rw [(hperm.map (nodeWeight maxD)).sum_eq, List.map_cons, List.sum_cons]
    by_cases hd : maxD ≤ node.g_score
    · rw [if_pos hd] at h; cases h
    · rw [if_neg hd] at h
      by_cases hmem : node.state ∈ explored
      · rw [if_pos hmem] at h
        cases h
        have hwpos : 0 < nodeWeight maxD node := pow_pos (by norm_num) _
        omega
      · rw [if_neg hmem] at h
        cases h
        have hm2 : frontierMeasure maxD
            (pushList ltNode rest (expandChildren p node.g_score node.state node.path))
            = frontierMeasure maxD rest
              + ((expandChildren p node.g_score node.state node.path).map
                  (nodeWeight maxD)).sum := by
          unfold frontierMeasure
          rw [((pushList_perm ltNode
            (expandChildren p node.g_score node.state node.path) rest).map
              (nodeWeight maxD)).sum_eq, List.map_append, List.sum_append]
        have hsum : ((expandChildren p node.g_score node.state node.path).map
            (nodeWeight maxD)).sum
            = (expandChildren p node.g_score node.state node.path).length
              * 65 ^ (maxD - node.g_score) := by
          apply sum_map_eq_length_mul
          intro n hn
          rw [nodeWeight, expandChildren_g p node.g_score node.state node.path n hn]
          congr 1
          omega
        have hlen := expandChildren_length_le p node.g_score node.state node.path
        have hw : nodeWeight maxD node = 65 * 65 ^ (maxD - node.g_score) := by
          rw [nodeWeight, show maxD + 1 - node.g_score = (maxD - node.g_score) + 1 by omega,
            pow_succ]
          ring
        have hppos : 0 < 65 ^ (maxD - node.g_score) := pow_pos (by norm_num) _
        have hmul : (expandChildren p node.g_score node.state node.path).length
            * 65 ^ (maxD - node.g_score) ≤ 64 * 65 ^ (maxD - node.g_score) :=
          Nat.mul_le_mul_right _ hlen
        rw [hm2, hsum, hmeq, hw]
        omega

/-- The `while frontier:` loop of `a_star_search`.  Termination is by the
weighted frontier measure — no fuel is involved, so the embedded search is a
total function. -/
def aStarLoop (p : Int) (maxDepth : Nat) (frontier : List SearchNode)
    (explored : List Board) : Option (Int × Int) :=
  match _h : aStarStep p maxDepth frontier explored with
  | StepRes.done r => r
  | StepRes.next f2 e2 => aStarLoop p maxDepth f2 e2
termination_by frontierMeasure maxDepth frontier
decreasing_by exact aStarStep_measure p maxDepth frontier explored f2 e2 _h

/-- `OthelloAI.a_star_search(initial_state, max_depth)`: push the start node
`SearchNode(0, 0, initial_state, [])` and run the loop. -/
def a_star_search (p : Int) (initial : Board) (maxDepth : Nat) : Option (Int × Int) :=
  aStarLoop p maxDepth (heappush ltNode [] ⟨0, 0, initial, []⟩) []

/-- `OthelloAI.get_move(state)` (`max_depth` defaults to 4). -/
def get_move (p : Int) (state : Board) : Option (Int × Int) :=
  a_star_search p state 4

theorem aStarLoop_unfold (p : Int) (maxD : Nat) (frontier : List SearchNode)
    (explored : List Board) :
    aStarLoop p maxD frontier explored =
      match aStarStep p maxD frontier explored with
      | StepRes.done r => r
      | StepRes.next f2 e2 => aStarLoop p maxD f2 e2 := by
  rw [aStarLoop]
  cases aStarStep p maxD frontier explored <;> rfl

theorem heappush_nil (c : SearchNode) : heappush ltNode [] c = [c] := by
  rw [heappush, siftdownLoop]
  simp

theorem aStarStep_cutoff (p : Int) (maxD : Nat) (frontier : List SearchNode)
    (explored : List Board) (node : SearchNode) (rest : List SearchNode)
    (hpop : heappop ltNode frontier = some (node, rest))
    (hd : maxD ≤ node.g_score) :
    aStarStep p maxD frontier explored =
      StepRes.done (match node.path with
        | [] => none
        | m :: _ => some m) := by
  rw [aStarStep, hpop]
  dsimp only
  rw [if_pos hd]

theorem aStarStep_discard (p : Int) (maxD : Nat) (frontier : List SearchNode)
    (explored : List Board) (node : SearchNode) (rest : List SearchNode)
    (hpop : heappop ltNode frontier = some (node, rest))
    (hd : node.g_score < maxD) (hmem : node.state ∈ explored) :
    aStarStep p maxD frontier explored = StepRes.next rest explored := by
  rw [aStarStep, hpop]
  dsimp only
  rw [if_neg (by omega), if_pos hmem]

theorem aStarStep_expand (p : Int) (maxD : Nat) (frontier : List SearchNode)
    (explored : List Board) (node : SearchNode) (rest : List SearchNode)
    (hpop : heappop ltNode frontier = some (node, rest))
    (hd : node.g_score < maxD) (hmem : node.state ∉ explored) :
    aStarStep p maxD frontier explored =
      StepRes.next
        (pushList ltNode rest (expandChildren p node.g_score node.state node.path))
        (node.state :: explored) := by
  rw [aStarStep, hpop]
  dsimp only
  rw [if_neg (by omega), if_neg hmem]

/-- C3: every successor node pushed during an expansion of a node at depth
`g` is pushed with `priorityScore = g + 1 + h` — `h` being `evaluate` of the
successor board for the Black (+1) searcher and its negation for the White
(-1) searcher — and with depth `g + 1`. -/
theorem child_priority_formula (p : Int) (g : Nat) (b : Board) (path : List (Int × Int))
    (n : SearchNode) (hp : p = 1 ∨ p = -1) (hn : n ∈ expandChildren p g b path) :
    n.g_score = g + 1 ∧
      n.f_score = (g : Int) + 1 +
        (if p = 1 then evaluate n.state else -(evaluate n.state)) := by
  obtain ⟨m, _, s, _, rfl⟩ := (expandChildren_mem p g b path n).mp hn
  refine ⟨rfl, ?_⟩
  dsimp only
  rcases hp with rfl | rfl
  · norm_num
  · norm_num

/-- Witness for C3 at the starting board and the Black searcher. -/
theorem child_priority_formula_witness :
    ∃ n ∈ expandChildren 1 0 othelloInit [],
      n.g_score = 0 + 1 ∧
      n.f_score = ((0 : Nat) : Int) + 1 +
        (if (1 : Int) = 1 then evaluate n.state else -(evaluate n.state)) := by
  have hne : expandChildren 1 0 othelloInit [] ≠ [] := by decide
  obtain ⟨n, hn⟩ : ∃ n, n ∈ expandChildren 1 0 othelloInit [] := by
    cases h : expandChildren 1 0 othelloInit [] with
    | nil => exact absurd h hne
    | cons a t => exact ⟨a, h ▸ List.mem_cons_self a t⟩
  exact ⟨n, hn, child_priority_formula 1 0 othelloInit [] n (Or.inl rfl) hn⟩

/-- C8: a popped node whose board fingerprint is already in the explored set
is discarded without being expanded — whatever its depth or path — and an
unexplored node adds exactly its board fingerprint while its successors are
pushed. -/
theorem explored_board_discarded (p : Int) (maxD : Nat) (frontier : List SearchNode)
    (explored : List Board) (node : SearchNode) (rest : List SearchNode)
    (hpop : heappop ltNode frontier = some (node, rest))
    (hdepth : node.g_score < maxD) :
    (node.state ∈ explored →
      aStarLoop p maxD frontier explored = aStarLoop p maxD rest explored) ∧
    (node.state ∉ explored →
      aStarLoop p maxD frontier explored =
        aStarLoop p maxD
          (pushList ltNode rest (expandChildren p node.g_score node.state node.path))
          (node.state :: explored)) := by
  constructor
  · intro hmem
    rw [aStarLoop_unfold,
      aStarStep_discard p maxD frontier explored node rest hpop hdepth hmem]
  · intro hmem
    rw [aStarLoop_unfold,
      aStarStep_expand p maxD frontier explored node rest hpop hdepth hmem]

/-- Witness for C8: a frontier holding one depth-0 node whose board is
already fingerprinted. -/
theorem explored_board_discarded_witness :
    heappop ltNode [⟨0, 0, othelloInit, []⟩] = some (⟨0, 0, othelloInit, []⟩, []) ∧
    (0 : Nat) < 4 ∧ othelloInit ∈ [othelloInit] ∧
    aStarLoop 1 4 [⟨0, 0, othelloInit, []⟩] [othelloInit] =
      aStarLoop 1 4 [] [othelloInit] := by
  have hpop : heappop ltNode [⟨0, 0, othelloInit, []⟩]
      = some (⟨0, 0, othelloInit, []⟩, []) := rfl
  refine ⟨hpop, by omega, List.mem_cons_self _ _, ?_⟩
  exact (explored_board_discarded 1 4 [⟨0, 0, othelloInit, []⟩] [othelloInit]
    ⟨0, 0, othelloInit, []⟩ [] hpop (by decide)).1 (List.mem_cons_self _ _)

/-! ## Totality and result range of the search (claim C9) -/

/-- A move with coordinates inside the 8×8 grid. -/
def MoveOK (m : Int × Int) : Prop := 0 ≤ m.1 ∧ m.1 < 8 ∧ 0 ≤ m.2 ∧ m.2 < 8

theorem get_valid_moves_bounds (b : Board) (q : Int) :
    ∀ m ∈ get_valid_moves b q, MoveOK m := by
  intro m hm
  rw [get_valid_moves] at hm
  obtain ⟨i, hi, hm2⟩ := List.mem_flatMap.mp hm
  obtain ⟨j, hj, hm3⟩ := List.mem_filterMap.mp hm2
  rw [List.mem_range] at hi hj
  by_cases hv : is_valid_move b i j q = true
  · rw [if_pos hv, Option.some.injEq] at hm3
    rw [← hm3]
    refine ⟨by positivity, ?_, by positivity, ?_⟩
    · show ((i : Int)) < 8
      exact_mod_cast hi
    · show ((j : Int)) < 8
      exact_mod_cast hj
  · rw [if_neg hv] at hm3
    cases hm3

theorem expandChildren_path_bounds (p : Int) (g : Nat) (b : Board)
    (path : List (Int × Int)) (hpath : ∀ mv ∈ path, MoveOK mv) :
    ∀ n ∈ expandChildren p g b path, ∀ mv ∈ n.path, MoveOK mv := by
  intro n hn mv hmv
  obtain ⟨m, hm, s, _, rfl⟩ := (expandChildren_mem p g b path n).mp hn
  dsimp only at hmv
  by_cases he : path.isEmpty
  · rw [if_pos he] at hmv
    rcases List.mem_append.mp hmv with hl | hr
    · exact hpath mv hl
    · have : mv = m := by simpa using hr
      rw [this]
      exact get_valid_moves_bounds b _ m hm
  · rw [if_neg he] at hmv
    exact hpath mv hmv

theorem aStarLoop_result_ok (p : Int) (maxD : Nat) :
    ∀ (N : Nat) (frontier : List SearchNode) (explored : List Board),
      frontierMeasure maxD frontier ≤ N →
      (∀ n ∈ frontier, ∀ mv ∈ n.path, MoveOK mv) →
      ∀ m, aStarLoop p maxD frontier explored = some m → MoveOK m := by
  intro N
  induction N using Nat.strong_induction_on with
  | _ N ih =>
    intro frontier explored hN hinv m hres
    rw [aStarLoop_unfold] at hres
    cases hpop : heappop ltNode frontier with
    | none =>
      rw [show aStarStep p maxD frontier explored = StepRes.done none by
        rw [aStarStep, hpop]] at hres
      cases hres
    | some pr =>
      obtain ⟨node, rest⟩ := pr
      have hne : frontier ≠ [] := by
        intro hnil
        rw [hnil, heappop_nil] at hpop
        cases hpop
      obtain ⟨x, h2, hx, hx0, hperm⟩ := heappop_spec ltNode frontier hne
      rw [hpop, Option.some.injEq, Prod.mk.injEq] at hx
      rw [← hx.1, ← hx.2] at hperm
      have hnodemem : node ∈ frontier := hperm.mem_iff.mpr (List.mem_cons_self _ _)
      have hrestsub : ∀ n ∈ rest, n ∈ frontier := fun n hn =>
        hperm.mem_iff.mpr (List.mem_cons_of_mem _ hn)
      by_cases hd : maxD ≤ node.g_score
      · rw [aStarStep_cutoff p maxD frontier explored node rest hpop hd] at hres
        cases hpath : node.path with
        | nil => rw [hpath] at hres; cases hres
        | cons mv tl =>
          rw [hpath] at hres
          rw [Option.some.injEq] at hres
          rw [← hres]
          exact hinv node hnodemem mv (hpath ▸ List.mem_cons_self mv tl)
      · by_cases hmem : node.state ∈ explored
        · rw [aStarStep_discard p maxD frontier explored node rest hpop (by omega) hmem]
            at hres
          have hlt : frontierMeasure maxD rest < frontierMeasure maxD frontier :=
            aStarStep_measure p maxD frontier explored rest explored
              (aStarStep_discard p maxD frontier explored node rest hpop (by omega) hmem)
          exact ih (frontierMeasure maxD rest) (by omega) rest explored (le_refl _)
            (fun n hn => hinv n (hrestsub n hn)) m hres
        · rw [aStarStep_expand p maxD frontier explored node rest hpop (by omega) hmem]
            at hres
          have hlt := aStarStep_measure p maxD frontier explored _ _
            (aStarStep_expand p maxD frontier explored node rest hpop (by omega) hmem)
          refine ih (frontierMeasure maxD
              (pushList ltNode rest (expandChildren p node.g_score node.state node.path)))
            (by omega) _ _ (le_refl _) ?_ m hres
          intro n hn mv hmv
          have hn2 : n ∈ rest ++ expandChildren p node.g_score node.state node.path :=
            (pushList_perm ltNode _ rest).mem_iff.mp hn
          rcases List.mem_append.mp hn2 with hl | hr
          · exact hinv n (hrestsub n hl) mv hmv
          · exact expandChildren_path_bounds p node.g_score node.state node.path
              (hinv node hnodemem) n hr mv hmv

/-- C9: for every well-formed board the embedded `get_move` is a total
function (the loop's termination is proved by the frontier measure, with no
fuel) whose only outcomes are `none` — the "no move" signal — or a move
with both coordinates in `[0,7]`; no error outcome exists. -/
theorem get_move_total_in_range (p : Int) (b : Board) (_hwf : WFBoard b) :
    get_move p b = none ∨
      ∃ r c : Int, get_move p b = some (r, c) ∧
        0 ≤ r ∧ r < 8 ∧ 0 ≤ c ∧ c < 8 := by
  cases hres : get_move p b with
  | none => exact Or.inl rfl
  | some m =>
    right
    rw [get_move, a_star_search] at hres
    have hinit : heappush ltNode [] ⟨0, 0, b, []⟩ = [⟨0, 0, b, []⟩] := heappush_nil _
    rw [hinit] at hres
    have hok : MoveOK m := by
      refine aStarLoop_result_ok p 4 (frontierMeasure 4 [⟨0, 0, b, []⟩])
        [⟨0, 0, b, []⟩] [] (le_refl _) ?_ m hres
      intro n hn mv hmv
      have hn2 : n = ⟨0, 0, b, []⟩ := by simpa using hn
      rw [hn2] at hmv
      cases hmv
    exact ⟨m.1, m.2, by simp [hres], hok.1, hok.2.1, hok.2.2.1, hok.2.2.2⟩

/-- Witness for C9 at the starting board. -/
theorem get_move_total_in_range_witness :
    WFBoard othelloInit ∧
      (get_move 1 othelloInit = none ∨
        ∃ r c : Int, get_move 1 othelloInit = some (r, c) ∧
          0 ≤ r ∧ r < 8 ∧ 0 ≤ c ∧ c < 8) :=
  ⟨by decide, get_move_total_in_range 1 othelloInit (by decide)⟩

/-! ## The depth-1 cutoff scenario (claim C2) -/

/-- C2: with max depth 1 the search returns the move of the child with the
lowest `priorityScore` among the single expansion ply's candidates, ties
going to the earliest child in the (row-major) enumeration order: the node
`n` returned sits at index `i` of the expansion list, no candidate scores
lower, and every candidate before index `i` scores strictly higher. -/
theorem depth_one_returns_first_min (p : Int) (b : Board)
    (hne : expandChildren p 0 b [] ≠ []) :
    ∃ (n : SearchNode) (i : Nat) (mv : Int × Int),
      (expandChildren p 0 b [])[i]? = some n ∧
      (∀ (j : Nat) (x : SearchNode), (expandChildren p 0 b [])[j]? = some x →
        n.f_score ≤ x.f_score) ∧
      (∀ (j : Nat) (x : SearchNode), j < i → (expandChildren p 0 b [])[j]? = some x →
        n.f_score < x.f_score) ∧
      n.path = [mv] ∧ a_star_search p b 1 = some mv := by
  cases hcs : expandChildren p 0 b [] with
  | nil => exact absurd hcs hne
  | cons c0 ct =>
    obtain ⟨i, hidx, hmin, hstrict⟩ := foldlMin_spec SearchNode.f_score ct c0
    set m := ct.foldl (fun cur c =>
      if SearchNode.f_score c < SearchNode.f_score cur then c else cur) c0 with hm
    have hmemcs : m ∈ c0 :: ct := by
      obtain ⟨hb2, hv⟩ := List.getElem?_eq_some.mp hidx
      exact hv ▸ List.getElem_mem hb2
    have hmem_exp : m ∈ expandChildren p 0 b [] := by rw [hcs]; exact hmemcs
    obtain ⟨mv, hmvmem, s, hmk, hmeq⟩ := (expandChildren_mem p 0 b [] m).mp hmem_exp
    have hpath : m.path = [mv] := by rw [hmeq]; simp
    have hg : m.g_score = 0 + 1 := expandChildren_g p 0 b [] m hmem_exp
    have hinit : heappush ltNode [] ⟨0, 0, b, []⟩ = [⟨0, 0, b, []⟩] := heappush_nil _
    have hpop1 : heappop ltNode [(⟨0, 0, b, []⟩ : SearchNode)] =
        some (⟨0, 0, b, []⟩, []) := rfl
    have hstep1 : aStarStep p 1 [(⟨0, 0, b, []⟩ : SearchNode)] [] =
        StepRes.next (pushList ltNode [] (expandChildren p 0 b [])) [b] :=
      aStarStep_expand p 1 [⟨0, 0, b, []⟩] [] ⟨0, 0, b, []⟩ [] hpop1
        Nat.zero_lt_one (List.not_mem_nil b)
    have hsingle : ∀ (j : Nat) (a : SearchNode), ([c0] : List SearchNode)[j]? = some a →
        ¬(SearchNode.f_score a < SearchNode.f_score c0) := by
      intro j a ha
      match j with
      | 0 =>
        rw [List.getElem?_cons_zero, Option.some.injEq] at ha
        rw [← ha]
        omega
      | Nat.succ k =>
        rw [List.getElem?_cons_succ] at ha
        cases ha
    obtain ⟨hhead, hminall⟩ := pushList_head_min ltNode SearchNode.f_score ltNode_key
      ct [c0] c0 List.getElem?_cons_zero hsingle
    have hfront : pushList ltNode [] (expandChildren p 0 b []) = pushList ltNode [c0] ct := by
      rw [hcs]
      show (c0 :: ct).foldl (heappush ltNode) [] = ct.foldl (heappush ltNode) [c0]
      rw [List.foldl_cons, heappush_nil]
    have hfne : pushList ltNode [c0] ct ≠ [] := by
      intro h0
      rw [h0] at hhead
      cases hhead
    obtain ⟨x, h2, hx, hx0, hperm⟩ := heappop_spec ltNode (pushList ltNode [c0] ct) hfne
    have hxm : x = m := by
      have hmx := hx0.symm.trans hhead
      rw [Option.some.injEq] at hmx
      exact hmx
    rw [hxm] at hx
    have hstep2 : aStarStep p 1 (pushList ltNode [c0] ct) [b] = StepRes.done (some mv) := by
      have hcut := aStarStep_cutoff p 1 (pushList ltNode [c0] ct) [b] m h2 hx (by omega)
      rw [hpath] at hcut
      exact hcut
    refine ⟨m, i, mv, hidx, hmin, hstrict, hpath, ?_⟩
    · rw [a_star_search, hinit, aStarLoop_unfold, hstep1]
      dsimp only
      rw [hfront, aStarLoop_unfold, hstep2]

/-- Witness for C2 at the starting board and the Black searcher. -/
theorem depth_one_returns_first_min_witness :
    expandChildren 1 0 othelloInit [] ≠ [] ∧
    ∃ (n : SearchNode) (i : Nat) (mv : Int × Int),
      (expandChildren 1 0 othelloInit [])[i]? = some n ∧
      (∀ (j : Nat) (x : SearchNode), (expandChildren 1 0 othelloInit [])[j]? = some x →
        n.f_score ≤ x.f_score) ∧
      (∀ (j : Nat) (x : SearchNode), j < i →
        (expandChildren 1 0 othelloInit [])[j]? = some x → n.f_score < x.f_score) ∧
      n.path = [mv] ∧ a_star_search 1 othelloInit 1 = some mv :=
  ⟨by decide, depth_one_returns_first_min 1 othelloInit (by decide)⟩

/-- Witness for C1 at the starting board, Black playing (2,4). -/
theorem valid_iff_flips_witness :
    WFBoard othelloInit ∧
    (is_valid_move othelloInit 2 4 1 = true ↔
      ∃ b₂, make_move othelloInit 2 4 1 = some b₂ ∧
        bget b₂ 2 4 ≠ bget othelloInit 2 4 ∧
        ∃ d ∈ directions, ∃ k : Int, 1 ≤ k ∧
          bget b₂ (2 + k * d.1) (4 + k * d.2)
            ≠ bget othelloInit (2 + k * d.1) (4 + k * d.2)) :=
  ⟨by decide, valid_iff_flips othelloInit 1 2 4 (by decide) (Or.inl rfl)
    (by norm_num) (by norm_num)⟩

/-- Witness for C4: a one-array store holding the starting board. -/
theorem make_move_no_mutation_witness :
    (0 : Nat) < (⟨fun _ => othelloInit, 1⟩ : Store).next ∧
    is_valid_move ((⟨fun _ => othelloInit, 1⟩ : Store).mem 0) 2 4 1 = true ∧
    ((∀ i j : Fin 8,
        (makeMoveHeap ⟨fun _ => othelloInit, 1⟩ 0 2 4 1).1.mem 0 i j
          = (⟨fun _ => othelloInit, 1⟩ : Store).mem 0 i j) ∧
      (makeMoveHeap ⟨fun _ => othelloInit, 1⟩ 0 2 4 1).2
          = some (⟨fun _ => othelloInit, 1⟩ : Store).next ∧
      make_move ((⟨fun _ => othelloInit, 1⟩ : Store).mem 0) 2 4 1 =
        some ((makeMoveHeap ⟨fun _ => othelloInit, 1⟩ 0 2 4 1).1.mem
          (⟨fun _ => othelloInit, 1⟩ : Store).next)) :=
  ⟨Nat.zero_lt_one, by decide,
    make_move_no_mutation ⟨fun _ => othelloInit, 1⟩ 0 2 4 1 Nat.zero_lt_one (by decide)⟩

/-- Witness for C10 at the starting board. -/
theorem accesses_in_bounds_witness :
    is_valid_moveC othelloInit 2 4 1 = some (is_valid_move othelloInit 2 4 1) ∧
    make_moveC othelloInit 2 4 1 = some (make_move othelloInit 2 4 1) :=
  accesses_in_bounds othelloInit 2 4 1 (by norm_num) (by norm_num)

/-! ## Fuel 8 is exact

The scans stop, at the latest, when the ray leaves the board, and along any
of the 8 directions that happens within 8 steps from anywhere: the two
lemmas below show the fuel-8 translations agree with every larger fuel, so
no behaviour of the unbounded Python loops is truncated. -/

theorem axis_escape (z dz : Int) (hdz : dz = 1 ∨ dz = -1) :
    ∃ j : Nat, j ≤ 8 ∧ ¬(0 ≤ z + j * dz ∧ z + j * dz < 8) := by
  rcases hdz with rfl | rfl
  · by_cases h : 0 ≤ z
    · exact ⟨(8 - z).toNat, by omega, by omega⟩
    · exact ⟨0, by omega, by omega⟩
  · by_cases h : z < 8
    · exact ⟨(z + 1).toNat, by omega, by omega⟩
    · exact ⟨0, by omega, by omega⟩

theorem ray_escapes (d : Int × Int) (hd : d ∈ directions) (x y : Int) :
    ∃ j : Nat, j ≤ 8 ∧
      ¬(0 ≤ x + j * d.1 ∧ x + j * d.1 < 8 ∧ 0 ≤ y + j * d.2 ∧ y + j * d.2 < 8) := by
  fin_cases hd
  case _ =>
    obtain ⟨j, hj, ho⟩ := axis_escape y 1 (Or.inl rfl)
    exact ⟨j, hj, fun h => ho ⟨h.2.2.1, h.2.2.2⟩⟩
  case _ =>
    obtain ⟨j, hj, ho⟩ := axis_escape x 1 (Or.inl rfl)
    exact ⟨j, hj, fun h => ho ⟨h.1, h.2.1⟩⟩
  case _ =>
    obtain ⟨j, hj, ho⟩ := axis_escape y (-1) (Or.inr rfl)
    exact ⟨j, hj, fun h => ho ⟨h.2.2.1, h.2.2.2⟩⟩
  case _ =>
    obtain ⟨j, hj, ho⟩ := axis_escape x (-1) (Or.inr rfl)
    exact ⟨j, hj, fun h => ho ⟨h.1, h.2.1⟩⟩
  case _ =>
    obtain ⟨j, hj, ho⟩ := axis_escape x 1 (Or.inl rfl)
    exact ⟨j, hj, fun h => ho ⟨h.1, h.2.1⟩⟩
  case _ =>
    obtain ⟨j, hj, ho⟩ := axis_escape x (-1) (Or.inr rfl)
    exact ⟨j, hj, fun h => ho ⟨h.1, h.2.1⟩⟩
  case _ =>
    obtain ⟨j, hj, ho⟩ := axis_escape x 1 (Or.inl rfl)
    exact ⟨j, hj, fun h => ho ⟨h.1, h.2.1⟩⟩
  case _ =>
    obtain ⟨j, hj, ho⟩ := axis_escape x (-1) (Or.inr rfl)
    exact ⟨j, hj, fun h => ho ⟨h.1, h.2.1⟩⟩

theorem wouldFlipAux_fuel_ge (b : Board) (dx dy p : Int) :
    ∀ (fuel j : Nat) (x y : Int) (seen : Bool), j ≤ fuel →
      ¬(0 ≤ x + j * dx ∧ x + j * dx < 8 ∧ 0 ≤ y + j * dy ∧ y + j * dy < 8) →
      ∀ k : Nat, wouldFlipAux b dx dy p x y seen (fuel + k)
        = wouldFlipAux b dx dy p x y seen fuel := by
  intro fuel
  induction fuel with
  | zero =>
    intro j x y seen hj hout k
    have hj0 : j = 0 := by omega
    rw [hj0] at hout
    simp only [Nat.cast_zero, zero_mul, add_zero] at hout
    cases k with
    | zero => rfl
    | succ k2 =>
      rw [Nat.zero_add, wouldFlipAux, wouldFlipAux, if_neg hout]
  | succ f ih =>
    intro j x y seen hj hout k
    rw [show f + 1 + k = (f + k) + 1 by omega]
    rw [wouldFlipAux, wouldFlipAux]
    by_cases hin : 0 ≤ x ∧ x < 8 ∧ 0 ≤ y ∧ y < 8
    · rw [if_pos hin, if_pos hin]
      by_cases h0 : bget b x y = 0
      · rw [if_pos h0, if_pos h0]
      · rw [if_neg h0, if_neg h0]
        by_cases hpp : bget b x y = p
        · rw [if_pos hpp, if_pos hpp]
        · rw [if_neg hpp, if_neg hpp]
          have hj0 : j ≠ 0 := by
            intro hz
            rw [hz] at hout
            simp only [Nat.cast_zero, zero_mul, add_zero] at hout
            exact hout hin
          refine ih (j - 1) (x + dx) (y + dy) true (by omega) ?_ k
          intro hcontra
          apply hout
          have hx : x + dx + ((j - 1 : Nat) : Int) * dx = x + (j : Nat) * dx := by
            have : ((j - 1 : Nat) : Int) = (j : Int) - 1 := by omega
            rw [this]
            ring
          have hy : y + dy + ((j - 1 : Nat) : Int) * dy = y + (j : Nat) * dy := by
            have : ((j - 1 : Nat) : Int) = (j : Int) - 1 := by omega
            rw [this]
            ring
          rw [hx, hy] at hcontra
          exact hcontra
    · rw [if_neg hin, if_neg hin]

theorem would_flip_fuel_exact (b : Board) (row col p : Int) (d : Int × Int)
    (hd : d ∈ directions) (k : Nat) :
    wouldFlipAux b d.1 d.2 p (row + d.1) (col + d.2) false (8 + k)
      = would_flip b row col d.1 d.2 p := by
  obtain ⟨j, hj, hout⟩ := ray_escapes d hd (row + d.1) (col + d.2)
  exact wouldFlipAux_fuel_ge b d.1 d.2 p 8 j (row + d.1) (col + d.2) false hj hout k

theorem flipDirAux_fuel_ge (b : Board) (dx dy p : Int) :
    ∀ (fuel j : Nat) (x y : Int) (acc : List (Int × Int)), j ≤ fuel →
      ¬(0 ≤ x + j * dx ∧ x + j * dx < 8 ∧ 0 ≤ y + j * dy ∧ y + j * dy < 8) →
      ∀ k : Nat, flipDirAux b dx dy p x y acc (fuel + k)
        = flipDirAux b dx dy p x y acc fuel := by
  intro fuel
  induction fuel with
  | zero =>
    intro j x y acc hj hout k
    have hj0 : j = 0 := by omega
    rw [hj0] at hout
    simp only [Nat.cast_zero, zero_mul, add_zero] at hout
    cases k with
    | zero => rfl
    | succ k2 =>
      rw [Nat.zero_add, flipDirAux, flipDirAux, if_neg hout]
  | succ f ih =>
    intro j x y acc hj hout k
    rw [show f + 1 + k = (f + k) + 1 by omega]
    rw [flipDirAux, flipDirAux]
    by_cases hin : 0 ≤ x ∧ x < 8 ∧ 0 ≤ y ∧ y < 8
    · rw [if_pos hin, if_pos hin]
      by_cases h0 : bget b x y = 0
      · rw [if_pos h0, if_pos h0]
      · rw [if_neg h0, if_neg h0]
        by_cases hpp : bget b x y = p
        · rw [if_pos hpp, if_pos hpp]
        · rw [if_neg hpp, if_neg hpp]
          have hj0 : j ≠ 0 := by
            intro hz
            rw [hz] at hout
            simp only [Nat.cast_zero, zero_mul, add_zero] at hout
            exact hout hin
          refine ih (j - 1) (x + dx) (y + dy) (acc ++ [(x, y)]) (by omega) ?_ k
          intro hcontra
          apply hout
          have hx : x + dx + ((j - 1 : Nat) : Int) * dx = x + (j : Nat) * dx := by
            have : ((j - 1 : Nat) : Int) = (j : Int) - 1 := by omega
            rw [this]
            ring
          have hy : y + dy + ((j - 1 : Nat) : Int) * dy = y + (j : Nat) * dy := by
            have : ((j - 1 : Nat) : Int) = (j : Int) - 1 := by omega
            rw [this]
            ring
          rw [hx, hy] at hcontra
          exact hcontra
    · rw [if_neg hin, if_neg hin]

theorem flip_direction_fuel_exact (b : Board) (row col p : Int) (d : Int × Int)
    (hd : d ∈ directions) (k : Nat) :
    flipDirAux b d.1 d.2 p (row + d.1) (col + d.2) [] (8 + k)
      = flip_direction b row col d.1 d.2 p := by
  obtain ⟨j, hj, hout⟩ := ray_escapes d hd (row + d.1) (col + d.2)
  exact flipDirAux_fuel_ge b d.1 d.2 p 8 j (row + d.1) (col + d.2) [] hj hout k
